import Mathlib

/-!
Verification of the LOCO binary-protocol engine (packet codec, secure
channel, transport negotiator, connection session) of the `kakaotalk_cli`
package, as a shallow embedding in Lean.

Modelling conventions:

* Python `bytes` values are modelled as `List Nat`, each entry a byte value.
* Python `str` values are modelled by their UTF-8 byte sequences, again as
  `List Nat`; a string is ASCII-encodable exactly when every byte is `< 128`.
* Machine integers are `Nat`/`Int`; `struct.pack` range errors and other
  exceptions are modelled with `Option`/`Except`.
* The body documents handled by the external `bson` library (pymongo) are
  modelled by the mutually inductive types `BVal`/`BDoc`/`BArr` below, and
  the library's encoder/decoder by `encDoc`/`bsonDecode`, following the BSON
  wire format as pymongo implements it for the value shapes the program
  uses (32/64-bit integers, strings, booleans, nested documents, arrays).
-/

set_option maxRecDepth 4096

/-! ## Little-endian byte encodings (`struct.pack`/`struct.unpack`) -/

/-- Little-endian 4-byte encoding of a natural number, as produced by
`struct.pack "<I"` for values below `2^32`. -/
def u32le (n : Nat) : List Nat :=
  [n % 256, n / 256 % 256, n / 65536 % 256, n / 16777216 % 256]

/-- Little-endian 8-byte encoding of a natural number below `2^64`. -/
def u64le (n : Nat) : List Nat :=
  [n % 256, n / 256 % 256, n / 65536 % 256, n / 16777216 % 256,
   n / 4294967296 % 256, n / 1099511627776 % 256,
   n / 281474976710656 % 256, n / 72057594037927936 % 256]

/-- Recombine four little-endian bytes into the natural number they encode. -/
def nat4 (b0 b1 b2 b3 : Nat) : Nat :=
  b0 + 256 * b1 + 65536 * b2 + 16777216 * b3

/-- Recombine eight little-endian bytes. -/
def nat8 (b0 b1 b2 b3 b4 b5 b6 b7 : Nat) : Nat :=
  b0 + 256 * b1 + 65536 * b2 + 16777216 * b3 + 4294967296 * b4 +
    1099511627776 * b5 + 281474976710656 * b6 + 72057594037927936 * b7

/-- Two's-complement 2-byte little-endian encoding of a signed 16-bit value,
as produced by `struct.pack "<h"`. -/
def i16le (i : Int) : List Nat :=
  [((i % 65536).toNat) % 256, ((i % 65536).toNat) / 256 % 256]

/-- Two's-complement 4-byte little-endian encoding of a signed 32-bit value,
as produced by `struct.pack "<i"`. -/
def i32le (i : Int) : List Nat := u32le ((i % 4294967296).toNat)

/-- Two's-complement 8-byte little-endian encoding of a signed 64-bit value,
as produced by `struct.pack "<q"`. -/
def i64le (i : Int) : List Nat := u64le ((i % 18446744073709551616).toNat)

/-- Signed interpretation of a 16-bit unsigned value (`struct.unpack "<h"`). -/
def decI16 (n : Nat) : Int := if n < 32768 then (n : Int) else (n : Int) - 65536

/-- Signed interpretation of a 32-bit unsigned value (`struct.unpack "<i"`). -/
def decI32 (n : Nat) : Int :=
  if n < 2147483648 then (n : Int) else (n : Int) - 4294967296

/-- Signed interpretation of a 64-bit unsigned value (`struct.unpack "<q"`). -/
def decI64 (n : Nat) : Int :=
  if n < 9223372036854775808 then (n : Int) else (n : Int) - 18446744073709551616

/-! ## Byte-string helpers (`bytes.rstrip`, C strings, decimal rendering) -/

/-- Model of Python `bytes.rstrip(b"\x00")`: drop trailing zero bytes. -/
def rstrip0 (l : List Nat) : List Nat :=
  (l.reverse.dropWhile (· = 0)).reverse

/-- Split a byte list at its first zero byte, returning the part before the
zero and the part after it (BSON C-string reading). -/
def readCString : List Nat → Option (List Nat × List Nat)
  | [] => none
  | b :: bs =>
    if b = 0 then some ([], bs)
    else (readCString bs).map fun kr => (b :: kr.1, kr.2)

/-- Decimal ASCII rendering with explicit fuel (the recursion divides by
ten; `n` itself is always enough fuel). -/
def decimalBytesAux (fuel n : Nat) : List Nat :=
  match fuel with
  | 0 => [48 + n % 10]
  | f + 1 =>
    if n < 10 then [48 + n]
    else decimalBytesAux f (n / 10) ++ [48 + n % 10]

/-- Decimal ASCII rendering of a natural number (Python `str(i).encode()`),
used by the BSON encoder for array indices. -/
def decimalBytes (n : Nat) : List Nat := decimalBytesAux n n

/-! ## BSON documents (the body values handled by the `bson` library) -/

mutual
/-- A BSON value of the shapes the program stores in packet bodies:
integers, strings, booleans, nested documents, arrays. -/
inductive BVal : Type where
  | int (i : Int)
  | str (s : List Nat)
  | bool (b : Bool)
  | doc (d : BDoc)
  | arr (a : BArr)

/-- A BSON document: an insertion-ordered association list of string keys
(UTF-8 byte sequences) and values, modelling a Python `dict`. -/
inductive BDoc : Type where
  | nil
  | cons (k : List Nat) (v : BVal) (rest : BDoc)

/-- A BSON array, modelling a Python `list`. -/
inductive BArr : Type where
  | nil
  | cons (v : BVal) (rest : BArr)
end

deriving instance DecidableEq for BVal, BDoc, BArr

deriving instance DecidableEq for Except

/-- BSON element type byte: pymongo writes `0x10` for ints fitting 32 bits,
`0x12` for wider ints, `0x02` for strings, `0x08` for booleans, `0x03` for
embedded documents and `0x04` for arrays. -/
def typeByte : BVal → Nat
  | .int i => if -2147483648 ≤ i ∧ i < 2147483648 then 16 else 18
  | .str _ => 2
  | .bool _ => 8
  | .doc _ => 3
  | .arr _ => 4

mutual
/-- Encoding of one BSON value (without its type byte). Fails (`none`) where
pymongo raises: an out-of-64-bit-range int (`OverflowError`) or an oversized
string (its `int32` length prefix overflows). A nested document becomes its
whole-document encoding (`encDoc` below, inlined here so the mutual
recursion stays structural). -/
def encVal (v : BVal) : Option (List Nat) :=
  match v with
  | .int i =>
    if -2147483648 ≤ i ∧ i < 2147483648 then some (i32le i)
    else if -9223372036854775808 ≤ i ∧ i < 9223372036854775808 then some (i64le i)
    else none
  | .str s =>
    if s.length + 1 < 2147483648 then some (u32le (s.length + 1) ++ s ++ [0])
    else none
  | .bool b => some [if b then 1 else 0]
  | .doc d =>
    match encElems d with
    | some es =>
      if es.length + 5 < 2147483648 then some (u32le (es.length + 5) ++ es ++ [0])
      else none
    | none => none
  | .arr a =>
    match encArrElems 0 a with
    | some es =>
      if es.length + 5 < 2147483648 then some (u32le (es.length + 5) ++ es ++ [0])
      else none
    | none => none
termination_by structural v

/-- Encoding of a document's element list: each element is a type byte, the
key as a zero-terminated C string, then the value. Fails where pymongo
raises `InvalidDocument`: a key containing a zero byte. -/
def encElems (d : BDoc) : Option (List Nat) :=
  match d with
  | .nil => some []
  | .cons k v rest =>
    if 0 ∈ k then none
    else
      match encVal v, encElems rest with
      | some vb, some rb => some (typeByte v :: (k ++ [0] ++ vb ++ rb))
      | _, _ => none
termination_by structural d

/-- Encoding of an array's elements: like a document whose keys are the
decimal renderings of the indices `i, i+1, ...`. -/
def encArrElems (i : Nat) (a : BArr) : Option (List Nat) :=
  match a with
  | .nil => some []
  | .cons v rest =>
    match encVal v, encArrElems (i + 1) rest with
    | some vb, some rb => some (typeByte v :: (decimalBytes i ++ [0] ++ vb ++ rb))
    | _, _ => none
termination_by structural a
end

/-- Encoding of a whole BSON document: `int32` total length (including the
length field and the trailing zero), the elements, a trailing zero byte.
This is `bson.BSON.encode`. -/
def encDoc (d : BDoc) : Option (List Nat) :=
  match encElems d with
  | some es =>
    if es.length + 5 < 2147483648 then some (u32le (es.length + 5) ++ es ++ [0])
    else none
  | none => none

mutual
/-- Structural size of a BSON value, used as parser fuel bound. -/
def bsizeV : BVal → Nat
  | .doc d => bsizeD d + 1
  | .arr a => bsizeA a + 1
  | _ => 1

/-- Structural size of a document. -/
def bsizeD : BDoc → Nat
  | .nil => 1
  | .cons _ v r => bsizeV v + bsizeD r + 1

/-- Structural size of an array. -/
def bsizeA : BArr → Nat
  | .nil => 1
  | .cons v r => bsizeV v + bsizeA r + 1
end

mutual
/-- Fuel-indexed parser for one BSON value given its type byte, returning
the value and the unconsumed bytes (pymongo's per-element getters). -/
def parseVal : Nat → Nat → List Nat → Option (BVal × List Nat)
  | 0, _, _ => none
  | fuel + 1, t, bs =>
    if t = 16 then
      match bs with
      | b0 :: b1 :: b2 :: b3 :: rest => some (.int (decI32 (nat4 b0 b1 b2 b3)), rest)
      | _ => none
    else if t = 18 then
      match bs with
      | b0 :: b1 :: b2 :: b3 :: b4 :: b5 :: b6 :: b7 :: rest =>
        some (.int (decI64 (nat8 b0 b1 b2 b3 b4 b5 b6 b7)), rest)
      | _ => none
    else if t = 2 then
      match bs with
      | b0 :: b1 :: b2 :: b3 :: rest =>
        let L := nat4 b0 b1 b2 b3
        if 1 ≤ L ∧ L ≤ rest.length ∧ rest[L - 1]? = some 0 then
          some (.str (rest.take (L - 1)), rest.drop L)
        else none
      | _ => none
    else if t = 8 then
      match bs with
      | b :: rest =>
        if b = 1 then some (.bool true, rest)
        else if b = 0 then some (.bool false, rest)
        else none
      | _ => none
    else if t = 3 then
      match bs with
      | _ :: _ :: _ :: _ :: rest =>
        match parseElems fuel rest with
        | some (d, r) => some (.doc d, r)
        | none => none
      | _ => none
    else if t = 4 then
      match bs with
      | _ :: _ :: _ :: _ :: rest =>
        match parseArr fuel rest with
        | some (a, r) => some (.arr a, r)
        | none => none
      | _ => none
    else none

/-- Fuel-indexed parser for a document's elements up to the terminating zero
byte. -/
def parseElems : Nat → List Nat → Option (BDoc × List Nat)
  | 0, _ => none
  | fuel + 1, bs =>
    match bs with
    | [] => none
    | t :: rest =>
      if t = 0 then some (.nil, rest)
      else
        match readCString rest with
        | some (k, r1) =>
          match parseVal fuel t r1 with
          | some (v, r2) =>
            match parseElems fuel r2 with
            | some (d, r3) => some (.cons k v d, r3)
            | none => none
          | none => none
        | none => none

/-- Fuel-indexed parser for an array's elements: keys are skipped and the
values collected in order, as pymongo's array getter does. -/
def parseArr : Nat → List Nat → Option (BArr × List Nat)
  | 0, _ => none
  | fuel + 1, bs =>
    match bs with
    | [] => none
    | t :: rest =>
      if t = 0 then some (.nil, rest)
      else
        match readCString rest with
        | some (_, r1) =>
          match parseVal fuel t r1 with
          | some (v, r2) =>
            match parseArr fuel r2 with
            | some (a, r3) => some (.cons v a, r3)
            | none => none
          | none => none
        | none => none
end

/-- Decoding of a whole BSON document (`bson.BSON(data).decode()`): checks
the declared total length against the supplied bytes, parses the elements
and requires exact consumption. -/
def bsonDecode (bs : List Nat) : Option BDoc :=
  match bs with
  | b0 :: b1 :: b2 :: b3 :: rest =>
    if nat4 b0 b1 b2 b3 = bs.length then
      match parseElems bs.length rest with
      | some (d, []) => some d
      | _ => none
    else none
  | _ => none

/-! ## The LOCO packet codec (`kakaotalk_cli/packet.py`) -/

/-- A LOCO protocol packet (the `LocoPacket` dataclass): header fields and a
BSON document body. -/
structure LocoPacket where
  packet_id : Nat
  status_code : Int
  method : List Nat
  body_type : Nat
  body : BDoc

deriving DecidableEq

/-- The fixed header size (`LocoPacket.HEADER_SIZE`). -/
def HEADER_SIZE : Nat := 22

/-- Wire form of the method field:
`method.encode("ascii").ljust(11, b"\x00")[:11]` — null-padded to 11 bytes
and truncated to 11 bytes. -/
def methodWire (m : List Nat) : List Nat :=
  (m ++ List.replicate (11 - m.length) 0).take 11

/-- Byte lookup with Python's 0-255 content; out-of-range indices return 0
(never exercised on the paths proved below). -/
def byteAt (data : List Nat) (i : Nat) : Nat := data.getD i 0

/-- `LocoPacket.encode`: `struct.pack "<Ih"` of id and status, the 11-byte
method field, `struct.pack "<BI"` of body type and body length, then the
BSON body bytes. `none` models the exceptions Python raises: a non-ASCII
method (`str.encode("ascii")`), out-of-range header fields (`struct.pack`),
or a body the BSON encoder rejects. -/
def LocoPacket.encode (p : LocoPacket) : Option (List Nat) :=
  match encDoc p.body with
  | none => none
  | some body_bytes =>
    if p.packet_id < 4294967296 ∧ -32768 ≤ p.status_code ∧ p.status_code < 32768 ∧
        p.body_type < 256 ∧ ∀ b ∈ p.method, b < 128 then
      some (u32le p.packet_id ++ i16le p.status_code ++ methodWire p.method ++
        [p.body_type] ++ u32le body_bytes.length ++ body_bytes)
    else none

/-- `LocoPacket.decode`: rejects data shorter than 22 bytes (`ValueError`),
reads the header fields, strips trailing nulls from the method and
ASCII-decodes it, then takes `data[22 : 22 + body_length]` — Python slicing
silently truncates this slice when fewer bytes are present — and
BSON-decodes it when non-empty (an empty slice yields an empty body). -/
def LocoPacket.decode (data : List Nat) : Except String LocoPacket :=
  if data.length < HEADER_SIZE then .error "Data too short"
  else
    let methodBytes := rstrip0 ((data.drop 6).take 11)
    if ∀ b ∈ methodBytes, b < 128 then
      let body_length := nat4 (byteAt data 18) (byteAt data 19) (byteAt data 20)
        (byteAt data 21)
      let body_bytes := (data.drop HEADER_SIZE).take body_length
      if body_bytes = [] then
        .ok ⟨nat4 (byteAt data 0) (byteAt data 1) (byteAt data 2) (byteAt data 3),
          decI16 (byteAt data 4 + 256 * byteAt data 5), methodBytes,
          byteAt data 17, .nil⟩
      else
        match bsonDecode body_bytes with
        | some d =>
          .ok ⟨nat4 (byteAt data 0) (byteAt data 1) (byteAt data 2) (byteAt data 3),
            decI16 (byteAt data 4 + 256 * byteAt data 5), methodBytes,
            byteAt data 17, d⟩
        | none => .error "invalid BSON"
    else .error "method is not ASCII"

/-- `LocoPacket.decode_header`: reads only the 22-byte header, returning
`(packet_id, status_code, method, body_type, body_length)`. The `struct`
unpacks raise when fewer than 22 bytes are supplied, and the ASCII decode
raises on a non-ASCII method byte; both are modelled as errors. -/
def LocoPacket.decode_header (data : List Nat) :
    Except String (Nat × Int × List Nat × Nat × Nat) :=
  if data.length < HEADER_SIZE then .error "buffer too short"
  else
    let methodBytes := rstrip0 ((data.drop 6).take 11)
    if ∀ b ∈ methodBytes, b < 128 then
      .ok (nat4 (byteAt data 0) (byteAt data 1) (byteAt data 2) (byteAt data 3),
        decI16 (byteAt data 4 + 256 * byteAt data 5), methodBytes,
        byteAt data 17,
        nat4 (byteAt data 18) (byteAt data 19) (byteAt data 20) (byteAt data 21))
    else .error "method is not ASCII"

/-- `PacketBuilder`: builds request packets with an auto-incrementing id,
starting at 1 (`self._next_id = 1`). -/
structure PacketBuilder where
  next_id : Nat

/-- A freshly constructed `PacketBuilder()`. -/
def PacketBuilder.start : PacketBuilder := ⟨1⟩

/-- `PacketBuilder.build`: a packet with the current id, status 0, body
type 0, and the given method and body; the builder's id advances by one. -/
def PacketBuilder.build (b : PacketBuilder) (method : List Nat) (body : BDoc) :
    LocoPacket × PacketBuilder :=
  (⟨b.next_id, 0, method, 0, body⟩, ⟨b.next_id + 1⟩)

/-! ## The secure channel (`kakaotalk_cli/crypto.py`) -/

/-- Handshake constant: RSA output size in bytes (`HANDSHAKE_KEY_SIZE`). -/
def HANDSHAKE_KEY_SIZE : Nat := 256

/-- Handshake constant: key encrypt type 16, RSA-OAEP
(`HANDSHAKE_KEY_ENCRYPT_TYPE`). -/
def HANDSHAKE_KEY_ENCRYPT_TYPE : Nat := 16

/-- Handshake constant: payload encrypt type 2, AES-128-CFB
(`HANDSHAKE_ENCRYPT_TYPE`). -/
def HANDSHAKE_ENCRYPT_TYPE : Nat := 2

/-- Byte-wise xor of two byte strings (truncating to the shorter). -/
def xorBytes (a b : List Nat) : List Nat := List.zipWith Nat.xor a b

/-- AES-CFB encryption with 128-bit segment size, as the pycryptodome
cipher object performs it: each 16-byte plaintext segment is xored with the
block encryption of the previous ciphertext segment (initially the IV); a
final short segment uses a truncated keystream. `E` is AES-128 block
encryption under the channel key, an uninterpreted 16-byte-to-16-byte function of
the external library. -/
def cfbEncrypt (E : List Nat → List Nat) (prev pt : List Nat) : List Nat :=
  if pt = [] then []
  else
    let c := xorBytes (pt.take 16) (E prev)
    c ++ cfbEncrypt E c (pt.drop 16)
termination_by pt.length
decreasing_by
  rename_i h
  have : pt.length ≠ 0 := fun hh => h (List.length_eq_zero.mp hh)
  simp
  omega

/-- AES-CFB decryption with 128-bit segment size: each ciphertext segment
is xored with the block encryption of the previous ciphertext segment
(initially the IV). -/
def cfbDecrypt (E : List Nat → List Nat) (prev ct : List Nat) : List Nat :=
  if ct = [] then []
  else
    let p := xorBytes (ct.take 16) (E prev)
    p ++ cfbDecrypt E (ct.take 16) (ct.drop 16)
termination_by ct.length
decreasing_by
  rename_i h
  have : ct.length ≠ 0 := fun hh => h (List.length_eq_zero.mp hh)
  simp
  omega

/-- `LocoEncryptor.encrypt`: draws a fresh random 16-byte IV (`os.urandom`,
modelled as the explicit `iv` argument), CFB-encrypts the plaintext under
the channel key (the block function `E`), and frames the result as
`u32le (len iv + len ct) || iv || ct`. `none` models the `struct.pack "<I"`
overflow on absurdly long plaintexts. -/
def LocoEncryptor.encrypt (E : List Nat → List Nat) (iv pt : List Nat) :
    Option (List Nat) :=
  let encrypted := cfbEncrypt E iv pt
  if iv.length + encrypted.length < 4294967296 then
    some (u32le (iv.length + encrypted.length) ++ iv ++ encrypted)
  else none

/-- `LocoEncryptor.decrypt`: the argument is the frame body after the 4-byte
size field; the first 16 bytes are the IV, the remainder the ciphertext. -/
def LocoEncryptor.decrypt (E : List Nat → List Nat) (data : List Nat) :
    List Nat :=
  cfbDecrypt E (data.take 16) (data.drop 16)

/-- `LocoEncryptor.build_handshake_packet`: the three little-endian u32
handshake constants followed by the RSA-encrypted AES key. `rsaEnc` stands
for the external library's `PKCS1_OAEP` (SHA-1) encryption under the
imported public key; for a 2048-bit modulus its output is always 256
bytes. -/
def LocoEncryptor.build_handshake_packet (rsaEnc : List Nat → List Nat)
    (aes_key : List Nat) : List Nat :=
  u32le HANDSHAKE_KEY_SIZE ++ u32le HANDSHAKE_KEY_ENCRYPT_TYPE ++
    u32le HANDSHAKE_ENCRYPT_TYPE ++ rsaEnc aes_key

/-! ## The embedded RSA public key (`LOCO_RSA_PUBLIC_KEY_DER_B64`) -/

/-- The base64-encoded DER RSA public key embedded in `crypto.py`, verbatim
(the Python source splits it over six adjacent string literals). -/
def LOCO_RSA_PUBLIC_KEY_DER_B64 : String :=
  "MIIBCAKCAQEAo7B26MRFhR8ZpnDCMarG20Lv0JcX0GBIpcxWkGzRqye53zf/1QF+" ++
  "fBOhQFtdHD5IeaakmdPGGKckcrC1DKXvHvbupwNp2UE/5mLY4rR5qfchQu5wzubCr" ++
  "RIEXVKyXEogSiiWjjfwumpJ7j7J8qx6ZRhBYPIvYsQ6QGfNjSpvE9m4KYqwAnY9I" ++
  "2ydGHnX/OW4+pEIgrIeFSR+DQokeRMI5RmDYUQC6foDBXxX6eF4scw5/mcojvxGG" ++
  "UXLyqEdH8wSPnULhh8NRH6+PBFfQRpC3JXdsh2kJ3SlvLHd9/pfEGKAEMdPNvMcQ" ++
  "O/P4on9gbq6RKZVamwwEhBBS2Ajw/RjcQIBAw=="

/-- Value of one base64 alphabet character (`base64.b64decode`). -/
def b64Val (c : Char) : Option Nat :=
  if 'A' ≤ c ∧ c ≤ 'Z' then some (c.toNat - 65)
  else if 'a' ≤ c ∧ c ≤ 'z' then some (c.toNat - 71)
  else if '0' ≤ c ∧ c ≤ '9' then some (c.toNat + 4)
  else if c = '+' then some 62
  else if c = '/' then some 63
  else none

/-- Reassemble one group of up to four 6-bit values into bytes. -/
def b64Group : List Nat → List Nat
  | [a, b, c, d] => [a * 4 + b / 16, b % 16 * 16 + c / 4, c % 4 * 64 + d]
  | [a, b, c] => [a * 4 + b / 16, b % 16 * 16 + c / 4]
  | [a, b] => [a * 4 + b / 16]
  | _ => []

/-- Reassemble 6-bit values into bytes, four at a time. -/
def b64Chunks : List Nat → List Nat
  | a :: b :: c :: d :: rest => b64Group [a, b, c, d] ++ b64Chunks rest
  | l => b64Group l

/-- Model of Python `base64.b64decode`: requires a length that is a
multiple of four, strips `=` padding, maps the alphabet and regroups the
bits. -/
def base64Decode (s : String) : Option (List Nat) :=
  if s.data.length % 4 = 0 then
    match (s.data.filter (· ≠ '=')).mapM b64Val with
    | some vs => some (b64Chunks vs)
    | none => none
  else none

/-- Parse a DER length (short form, or long form with one or two length
bytes), returning the length and the remaining input. -/
def derLen : List Nat → Option (Nat × List Nat)
  | [] => none
  | b :: rest =>
    if b < 128 then some (b, rest)
    else if b = 129 then
      match rest with
      | l1 :: r => some (l1, r)
      | _ => none
    else if b = 130 then
      match rest with
      | l1 :: l2 :: r => some (l1 * 256 + l2, r)
      | _ => none
    else none

/-- Parse a DER INTEGER (tag 2), interpreting the content bytes as an
unsigned big-endian number (the key's integers are positive). -/
def derInt (bs : List Nat) : Option (Nat × List Nat) :=
  match bs with
  | 2 :: rest =>
    match derLen rest with
    | some (len, r) =>
      if len ≤ r.length then
        some ((r.take len).foldl (fun acc b => acc * 256 + b) 0, r.drop len)
      else none
    | none => none
  | _ => none

/-- Parse a PKCS#1 `RSAPublicKey`: a SEQUENCE (tag 0x30) of the modulus and
the public exponent, as `RSA.import_key` reads this blob. -/
def derRsaPublicKey (bs : List Nat) : Option (Nat × Nat) :=
  match bs with
  | 48 :: rest =>
    match derLen rest with
    | some (len, r) =>
      if len = r.length then
        match derInt r with
        | some (n, r2) =>
          match derInt r2 with
          | some (e, r3) => if r3 = [] then some (n, e) else none
          | none => none
        | none => none
      else none
    | none => none
  | _ => none

/-- The (modulus, exponent) pair of the embedded key. -/
def locoRsaKey : Option (Nat × Nat) :=
  match base64Decode LOCO_RSA_PUBLIC_KEY_DER_B64 with
  | some der => derRsaPublicKey der
  | none => none

/-- The embedded key's modulus. -/
def locoRsaModulus : Nat := (locoRsaKey.getD (0, 0)).1

/-! ## The connection session (`kakaotalk_cli/client.py`) -/

/-- ASCII string literals as byte lists. -/
def asciiBytes (s : String) : List Nat := s.data.map Char.toNat

/-- State of one `asyncio.Future` held in the pending map. -/
inductive FutState where
  | pending
  | resolved (p : LocoPacket)
  | cancelled

deriving DecidableEq

/-- Lookup in a Python dict modelled as an association list. -/
def dictGet (m : List (Nat × FutState)) (k : Nat) : Option FutState :=
  match m with
  | [] => none
  | (k', v) :: rest => if k' = k then some v else dictGet rest k

/-- Assignment `m[k] = v` in a Python dict: overwrite an existing entry,
otherwise append. -/
def dictSet (m : List (Nat × FutState)) (k : Nat) (v : FutState) :
    List (Nat × FutState) :=
  match m with
  | [] => [(k, v)]
  | (k', v') :: rest =>
    if k' = k then (k, v) :: rest else (k', v') :: dictSet rest k v

/-- `m.pop(k)`: remove the entry for `k`. -/
def dictRemove (m : List (Nat × FutState)) (k : Nat) : List (Nat × FutState) :=
  match m with
  | [] => []
  | (k', v') :: rest =>
    if k' = k then rest else (k', v') :: dictRemove rest k

/-- A push handler (`on_push` callback): invoked on a packet, it either
returns normally or raises, modelled by `Except` with the exception's
rendering as the error. -/
abbrev Handler : Type := LocoPacket → Except (List Nat) Unit

/-- The registered push handlers: method name → ordered handler list
(`self._push_handlers`). -/
abbrev PushHandlers : Type := List (List Nat × List Handler)

/-- Lookup `self._push_handlers.get(method, [])`. -/
def lookupHandlers (hs : PushHandlers) (method : List Nat) : List Handler :=
  match hs with
  | [] => []
  | (k, l) :: rest => if k = method then l else lookupHandlers rest method

/-- Whether a method already has a handler list registered. -/
def hasMethod (hs : PushHandlers) (method : List Nat) : Bool :=
  match hs with
  | [] => false
  | (k, _) :: rest => if k = method then true else hasMethod rest method

/-- Append a handler to an existing method's list. -/
def appendHandler (hs : PushHandlers) (method : List Nat) (h : Handler) :
    PushHandlers :=
  match hs with
  | [] => []
  | (k, l) :: rest =>
    if k = method then (k, l ++ [h]) :: rest
    else (k, l) :: appendHandler rest method h

/-- `on_push`: `self._push_handlers.setdefault(method, []).append(handler)` —
append to the method's list, creating it if absent. -/
def onPush (hs : PushHandlers) (method : List Nat) (h : Handler) : PushHandlers :=
  if hasMethod hs method then appendHandler hs method h
  else hs ++ [(method, [h])]

/-- `_handle_push`: invoke every handler registered for the packet's method,
in order, each inside `try/except`; a raised exception is caught and
logged. The result is the per-handler outcome list: `none` for a normal
return, `some e` for a logged exception. -/
def handlePush (hs : PushHandlers) (pkt : LocoPacket) : List (Option (List Nat)) :=
  (lookupHandlers hs pkt.method).map fun h =>
    match h pkt with
    | .ok _ => none
    | .error e => some e

/-- The session state the receive loop manipulates: the pending map
(`self._pending`), the push handlers, and the `self._connected` flag. -/
structure ClientState where
  pending : List (Nat × FutState)
  pushHandlers : PushHandlers
  connected : Bool

/-- What one receive-loop iteration produces beyond the new state. -/
inductive RecvOutcome where
  | delivered (id : Nat) (p : LocoPacket)
  | loopCrashed
  | pushed (log : List (Option (List Nat)))

/-- The reply deadline of `_send_packet` (`asyncio.wait_for(..., timeout=30.0)`),
in seconds. -/
def SEND_TIMEOUT_SECONDS : Nat := 30

/-- Slot registration in `_send_packet`:
`self._pending[packet.packet_id] = future` with a fresh pending future,
performed before the bytes are flushed. -/
def registerSlot (s : ClientState) (id : Nat) : ClientState :=
  { s with pending := dictSet s.pending id .pending }

/-- The state after `asyncio.wait_for(future, timeout=30.0)` hits the
deadline: `wait_for` cancels the future and raises `TimeoutError` to the
caller. `_send_packet` runs no cleanup on that path, so the pending-map
entry stays, now holding a cancelled future. -/
def timeoutSlot (s : ClientState) (id : Nat) : ClientState :=
  { s with pending := dictSet s.pending id .cancelled }

/-- One `_receive_loop` iteration after a packet has been decoded:
`if packet.packet_id in self._pending:` pops the entry and calls
`set_result` on its future — which succeeds only on a still-pending
future; on a cancelled one it raises `InvalidStateError`, caught by the
loop's blanket `except Exception`, which logs it and leaves the loop with
`self._connected = False`. An unmatched id is dispatched as a push and the
loop continues. -/
def recvStep (s : ClientState) (pkt : LocoPacket) : ClientState × RecvOutcome :=
  match dictGet s.pending pkt.packet_id with
  | some fut =>
    let s' := { s with pending := dictRemove s.pending pkt.packet_id }
    match fut with
    | .pending => (s', .delivered pkt.packet_id pkt)
    | _ => ({ s' with connected := false }, .loopCrashed)
  | none => (s, .pushed (handlePush s.pushHandlers pkt))

/-! ## The transport negotiator (`LocoClient.checkin`) -/

/-- Outcome of one `_loco_oneshot` call: the exception it raised, or the
reply packet's body. -/
inductive AttemptResult where
  | fails (cause : List Nat)
  | replies (body : BDoc)

/-- The per-attempt deadline `asyncio.wait_for(..., timeout=10)`. -/
def CHECKIN_TIMEOUT_SECONDS : Nat := 10

/-- The strict attempt order coded in `checkin`:
`for use_tls, port in [(True, 443), (True, checkin_port), (False, checkin_port)]`. -/
def checkinAttempts (checkin_port : Nat) : List (Bool × Nat) :=
  [(true, 443), (true, checkin_port), (false, checkin_port)]

/-- Key lookup in a BSON document (`body.get(key)`). -/
def bdocGet : BDoc → List Nat → Option BVal
  | .nil, _ => none
  | .cons k v r, key => if k = key then some v else bdocGet r key

/-- Assignment `body[key] = v`. -/
def bdocSet : BDoc → List Nat → BVal → BDoc
  | .nil, key, v => .cons key v .nil
  | .cons k v' r, key, v =>
    if k = key then .cons k v r else .cons k v' (bdocSet r key v)

/-- Python truthiness of the body values (`if host:`). -/
def pyTruthy : BVal → Bool
  | .int i => decide (i ≠ 0)
  | .str s => decide (s ≠ [])
  | .bool b => b
  | .doc .nil => false
  | .doc (.cons _ _ _) => true
  | .arr .nil => false
  | .arr (.cons _ _) => true

/-- What one attempt yields under `asyncio.wait_for(..., timeout=10)`:
exceeding the deadline turns any outcome into a failure (`TimeoutError`),
otherwise the oracle's outcome stands. The oracle gives each variant's
duration in seconds and result. -/
def attemptOutcome (oracle : Bool × Nat → Nat × AttemptResult)
    (a : Bool × Nat) : AttemptResult :=
  if (oracle a).1 > CHECKIN_TIMEOUT_SECONDS then .fails (asciiBytes "TimeoutError")
  else (oracle a).2

/-- The reply body when an attempt succeeded: a reply whose body carries a
truthy `"host"`; an exception or a falsy/absent host is not a success. -/
def attemptHost (r : AttemptResult) : Option BDoc :=
  match r with
  | .fails _ => none
  | .replies body =>
    match bdocGet body (asciiBytes "host") with
    | some v => if pyTruthy v then some body else none
    | none => none

/-- `checkin`'s attempt loop: try each variant in order; on the first one
whose reply has a truthy `"host"`, record the variant in `"_use_tls"` and
return the body; when the list is exhausted raise
`ConnectionError("All checkin attempts failed")` (individual failures are
only printed to stderr). -/
def checkinRun (oracle : Bool × Nat → Nat × AttemptResult) :
    List (Bool × Nat) → Except (List Nat) BDoc
  | [] => .error (asciiBytes "All checkin attempts failed")
  | a :: rest =>
    match attemptHost (attemptOutcome oracle a) with
    | some body => .ok (bdocSet body (asciiBytes "_use_tls") (.bool a.1))
    | none => checkinRun oracle rest

/-- `checkin(checkin_host, checkin_port)`, as a function of the oracle
describing what each transport variant does. -/
def checkin (oracle : Bool × Nat → Nat × AttemptResult) (checkin_port : Nat) :
    Except (List Nat) BDoc :=
  checkinRun oracle (checkinAttempts checkin_port)

/-- Contiguous-sublist test, for stating what an error message carries. -/
def isPrefixList : List Nat → List Nat → Bool
  | [], _ => true
  | _ :: _, [] => false
  | a :: as, b :: bs => a = b && isPrefixList as bs

/-- Whether `needle` occurs contiguously inside `hay`. -/
def listContains (needle : List Nat) : List Nat → Bool
  | [] => isPrefixList needle []
  | b :: rest => isPrefixList needle (b :: rest) || listContains needle rest

/-! ## Request building (`PacketBuilder`, `booking`, `checkin` requests) -/

/-- Build a sequence of packets from one builder, as successive
`send_command` calls do. -/
def buildSeq (b : PacketBuilder) : List (List Nat × BDoc) → List LocoPacket
  | [] => []
  | (m, body) :: rest =>
    (b.build m body).1 :: buildSeq (b.build m body).2 rest

/-- The `GETCONF` request body `booking` sends. -/
def bookingBody : BDoc :=
  .cons (asciiBytes "MCCMNC") (.str (asciiBytes "99999"))
    (.cons (asciiBytes "os") (.str (asciiBytes "mac"))
      (.cons (asciiBytes "model") (.str []) .nil))

/-- The `GETCONF` request `booking` builds — from a fresh local
`PacketBuilder()` (`builder = PacketBuilder()`). -/
def bookingPacket : LocoPacket :=
  (PacketBuilder.start.build (asciiBytes "GETCONF") bookingBody).1

/-- The `CHECKIN` request body. -/
def checkinBody (user_id : Int) : BDoc :=
  .cons (asciiBytes "userId") (.int user_id)
    (.cons (asciiBytes "os") (.str (asciiBytes "mac"))
      (.cons (asciiBytes "ntype") (.int 0)
        (.cons (asciiBytes "appVer") (.str (asciiBytes "4.5.0"))
          (.cons (asciiBytes "MCCMNC") (.str (asciiBytes "99999"))
            (.cons (asciiBytes "lang") (.str (asciiBytes "ko"))
              (.cons (asciiBytes "countryISO") (.str (asciiBytes "KR"))
                (.cons (asciiBytes "useSub") (.bool true) .nil)))))))

/-- The `CHECKIN` request `checkin` builds — likewise from a fresh local
`PacketBuilder()`. -/
def checkinPacket (user_id : Int) : LocoPacket :=
  (PacketBuilder.start.build (asciiBytes "CHECKIN") (checkinBody user_id)).1

/-! ## Claim theorems -/

/-- A 22-byte input whose header declares `bodyLength = 100` although zero
body bytes follow. -/
def c1data : List Nat :=
  u32le 1 ++ i16le 0 ++ methodWire [88] ++ [0] ++ u32le 100

/-- A packet whose ASCII method ends in a NUL byte. -/
def c4pkt : LocoPacket := ⟨1, 0, [65, 0], 0, BDoc.nil⟩

/-- The encoding of `c4pkt`. -/
def c4data : List Nat := (LocoPacket.encode c4pkt).getD []

/-- A roundtrip test packet exercising every body value shape: 32-bit and
64-bit integers, strings (including the empty string), booleans, a nested
document and an array, under a negative status code. -/
def c4wPkt : LocoPacket :=
  ⟨7, -2, asciiBytes "LOGINLIST", 0,
    .cons (asciiBytes "a") (.int 5)
      (.cons (asciiBytes "b") (.str (asciiBytes "hi"))
        (.cons (asciiBytes "c") (.bool true)
          (.cons (asciiBytes "d")
            (.doc (.cons (asciiBytes "x") (.int 1099511627776) .nil))
            (.cons (asciiBytes "e")
              (.arr (.cons (.int 1) (.cons (.str []) .nil))) .nil))))⟩

/-- The encoding of `c4wPkt`. -/
def c4wData : List Nat := (LocoPacket.encode c4wPkt).getD []

/-- A `PING` request packet. -/
def c5pkt : LocoPacket := ⟨3, 0, asciiBytes "PING", 0, BDoc.nil⟩

/-- The encoding of `c5pkt`. -/
def c5data : List Nat := (LocoPacket.encode c5pkt).getD []

/-- The channel block function for the secure-channel witnesses. -/
def c6E : List Nat → List Nat := fun _ => List.replicate 16 7

/-- A concrete 16-byte IV. -/
def c6iv : List Nat := List.replicate 16 0

/-- The frame `encrypt` produces for plaintext `[1, 2, 3]` under `c6E` and
`c6iv`. -/
def c6frame : List Nat := u32le 19 ++ c6iv ++ [6, 5, 4]

/-- A 16-byte IV for the C10 witness. -/
def c10iv : List Nat := List.replicate 16 9

/-- The frame `encrypt` produces for the 2-byte plaintext `[250, 251]`. -/
def c10frame : List Nat := u32le 18 ++ c10iv ++ [253, 252]

/-- A stand-in for the library's OAEP encryption, with the 256-byte output
a 2048-bit key produces. -/
def c7rsaEnc : List Nat → List Nat := fun _ => List.replicate 256 0

/-- A push handler that always raises. -/
def c8h1 : Handler := fun _ => .error (asciiBytes "boom")

/-- A push handler that returns normally. -/
def c8h2 : Handler := fun _ => .ok ()

/-- Handlers for `"MSG"`: the raising one registered first. -/
def c8hs : PushHandlers :=
  onPush (onPush [] (asciiBytes "MSG") c8h1) (asciiBytes "MSG") c8h2

/-- A session state with no pending slots and the two `"MSG"` handlers. -/
def c8state : ClientState := ⟨[], c8hs, true⟩

/-- An unsolicited `"MSG"` packet. -/
def c8pkt : LocoPacket := ⟨9, 0, asciiBytes "MSG", 0, BDoc.nil⟩

/-- An oracle under which every checkin attempt raises with cause
`"xyzzy"`. -/
def c3oracleA : Bool × Nat → Nat × AttemptResult :=
  fun _ => (0, .fails (asciiBytes "xyzzy"))

/-- An oracle whose attempts fail with a different cause, `"plugh"`. -/
def c3oracleB : Bool × Nat → Nat × AttemptResult :=
  fun _ => (0, .fails (asciiBytes "plugh"))

/-- The reply body of a successful legacy checkin. -/
def c3hostBody : BDoc :=
  .cons (asciiBytes "host") (.str (asciiBytes "loco.kakao.com"))
    (.cons (asciiBytes "port") (.int 5223) .nil)

/-- A canned oracle (the spec's probing scenario): TLS on 443 would reply
but takes 11 seconds (so it times out), TLS on the candidate port raises,
legacy mode succeeds within the deadline. -/
def c3oracle0 : Bool × Nat → Nat × AttemptResult :=
  fun a =>
    match a with
    | (true, 443) => (11, .replies c3hostBody)
    | (true, _) => (0, .fails (asciiBytes "ConnectionRefusedError"))
    | (false, _) => (1, .replies c3hostBody)

/-! ## Theorems -/

theorem u32le_length (n : Nat) : (u32le n).length = 4 := rfl

theorem nat4_u32le {n : Nat} (h : n < 4294967296) :
    nat4 (n % 256) (n / 256 % 256) (n / 65536 % 256) (n / 16777216 % 256) = n := by
  unfold nat4; omega

theorem nat8_u64le {n : Nat} (h : n < 18446744073709551616) :
    nat8 (n % 256) (n / 256 % 256) (n / 65536 % 256) (n / 16777216 % 256)
      (n / 4294967296 % 256) (n / 1099511627776 % 256)
      (n / 281474976710656 % 256) (n / 72057594037927936 % 256) = n := by
  unfold nat8; omega

theorem decI16_i16le {i : Int} (h1 : -32768 ≤ i) (h2 : i < 32768) :
    decI16 ((i % 65536).toNat % 256 + 256 * ((i % 65536).toNat / 256 % 256)) = i := by
  unfold decI16
  have hm : (0 : Int) ≤ i % 65536 := Int.emod_nonneg i (by norm_num)
  have hm2 : i % 65536 < 65536 := Int.emod_lt_of_pos i (by norm_num)
  omega

theorem decI32_i32le {i : Int} (h1 : -2147483648 ≤ i) (h2 : i < 2147483648) :
    decI32 (nat4 ((i % 4294967296).toNat % 256) ((i % 4294967296).toNat / 256 % 256)
      ((i % 4294967296).toNat / 65536 % 256) ((i % 4294967296).toNat / 16777216 % 256)) = i := by
  unfold decI32 nat4
  have hm : (0 : Int) ≤ i % 4294967296 := Int.emod_nonneg i (by norm_num)
  have hm2 : i % 4294967296 < 4294967296 := Int.emod_lt_of_pos i (by norm_num)
  omega

theorem decI64_i64le {i : Int} (h1 : -9223372036854775808 ≤ i)
    (h2 : i < 9223372036854775808) :
    decI64 (nat8 ((i % 18446744073709551616).toNat % 256)
      ((i % 18446744073709551616).toNat / 256 % 256)
      ((i % 18446744073709551616).toNat / 65536 % 256)
      ((i % 18446744073709551616).toNat / 16777216 % 256)
      ((i % 18446744073709551616).toNat / 4294967296 % 256)
      ((i % 18446744073709551616).toNat / 1099511627776 % 256)
      ((i % 18446744073709551616).toNat / 281474976710656 % 256)
      ((i % 18446744073709551616).toNat / 72057594037927936 % 256)) = i := by
  unfold decI64 nat8
  have hm : (0 : Int) ≤ i % 18446744073709551616 := Int.emod_nonneg i (by norm_num)
  have hm2 : i % 18446744073709551616 < 18446744073709551616 :=
    Int.emod_lt_of_pos i (by norm_num)
  omega

theorem readCString_append {k : List Nat} (rest : List Nat) (hk : 0 ∉ k) :
    readCString (k ++ 0 :: rest) = some (k, rest) := by
  induction k with
  | nil => simp [readCString]
  | cons b bs ih =>
    have hb : b ≠ 0 := fun h => hk (by simp [h])
    simp only [List.mem_cons, not_or] at hk
    simp [readCString, hb, ih hk.2]

theorem rstrip0_append_replicate {m : List Nat} (k : Nat)
    (hm : m.getLast? ≠ some 0) :
    rstrip0 (m ++ List.replicate k 0) = m := by
  unfold rstrip0
  rw [List.reverse_append, List.reverse_replicate]
  have hrep : List.dropWhile (fun b => b = 0)
      (List.replicate k 0 ++ m.reverse) = List.dropWhile (fun b => b = 0) m.reverse := by
    induction k with
    | zero => simp
    | succ n ih => simp [List.replicate_succ, List.dropWhile, ih]
  rw [hrep]
  cases hmr : m.reverse with
  | nil =>
    have : m = [] := List.reverse_eq_nil_iff.mp hmr
    simp [this]
  | cons a t =>
    have hga : m.getLast? = some a := by
      rw [List.getLast?_eq_head?_reverse, hmr]; rfl
    have ha0 : a ≠ 0 := by
      intro h; exact hm (h ▸ hga)
    have hrev : (a :: t).reverse = m := by
      have := congrArg List.reverse hmr
      simpa using this.symm
    simp [List.dropWhile_cons, ha0, hrev]

theorem decimalBytesAux_mem_range {f n b : Nat} (hb : b ∈ decimalBytesAux f n) :
    48 ≤ b ∧ b ≤ 57 := by
  induction f generalizing n with
  | zero =>
    simp [decimalBytesAux] at hb
    omega
  | succ f ih =>
    unfold decimalBytesAux at hb
    by_cases h : n < 10
    · simp [h] at hb; omega
    · simp [h] at hb
      rcases hb with hb | hb
      · exact ih hb
      · omega

theorem decimalBytes_mem_range {n b : Nat} (hb : b ∈ decimalBytes n) :
    48 ≤ b ∧ b ≤ 57 := decimalBytesAux_mem_range hb

theorem zero_not_mem_decimalBytes (n : Nat) : 0 ∉ decimalBytes n := by
  intro h
  have := decimalBytes_mem_range h
  omega

theorem typeByte_ne_zero (v : BVal) : typeByte v ≠ 0 := by
  cases v with
  | int i => simp only [typeByte]; split <;> simp
  | str s => simp [typeByte]
  | bool b => simp [typeByte]
  | doc d => simp [typeByte]
  | arr a => simp [typeByte]

mutual
theorem bsizeV_le_encVal (v : BVal) (vb : List Nat) (h : encVal v = some vb) :
    bsizeV v ≤ vb.length := by
  cases v with
  | int i =>
    unfold encVal at h
    split at h
    · cases h; simp [bsizeV, i32le, u32le]
    · split at h
      · cases h; simp [bsizeV, i64le, u64le]
      · cases h
  | str s =>
    unfold encVal at h
    split at h
    · cases h; simp [bsizeV, u32le]
    · cases h
  | bool b =>
    unfold encVal at h
    cases h; simp [bsizeV]
  | doc d =>
    unfold encVal at h
    split at h
    · split at h
      · rename_i es heq _
        cases h
        have := bsizeD_le_encElems d es heq
        simp [bsizeV, u32le]
        omega
      · cases h
    · cases h
  | arr a =>
    unfold encVal at h
    split at h
    · split at h
      · rename_i es heq _
        cases h
        have := bsizeA_le_encArrElems a 0 es heq
        simp [bsizeV, u32le]
        omega
      · cases h
    · cases h
termination_by sizeOf v

theorem bsizeD_le_encElems (d : BDoc) (eb : List Nat) (h : encElems d = some eb) :
    bsizeD d ≤ eb.length + 1 := by
  cases d with
  | nil =>
    unfold encElems at h
    cases h; simp [bsizeD]
  | cons k v r =>
    unfold encElems at h
    split at h
    · cases h
    · split at h
      · rename_i vb rb hv hr
        cases h
        have h1 := bsizeV_le_encVal v vb hv
        have h2 := bsizeD_le_encElems r rb hr
        simp [bsizeD]
        omega
      · cases h
termination_by sizeOf d

theorem bsizeA_le_encArrElems (a : BArr) (i : Nat) (eb : List Nat)
    (h : encArrElems i a = some eb) : bsizeA a ≤ eb.length + 1 := by
  cases a with
  | nil =>
    unfold encArrElems at h
    cases h; simp [bsizeA]
  | cons v r =>
    unfold encArrElems at h
    split at h
    · rename_i vb rb hv hr
      cases h
      have h1 := bsizeV_le_encVal v vb hv
      have h2 := bsizeA_le_encArrElems r (i + 1) rb hr
      simp [bsizeA]
      omega
    · cases h
termination_by sizeOf a
end

theorem bsizeV_pos (v : BVal) : 1 ≤ bsizeV v := by
  cases v <;> simp [bsizeV]

theorem bsizeD_pos (d : BDoc) : 1 ≤ bsizeD d := by
  cases d <;> simp [bsizeD]

theorem bsizeA_pos (a : BArr) : 1 ≤ bsizeA a := by
  cases a <;> simp [bsizeA]

theorem parseVal_i32_eq (f b0 b1 b2 b3 : Nat) (rest : List Nat) :
    parseVal (f + 1) 16 (b0 :: b1 :: b2 :: b3 :: rest) =
      some (.int (decI32 (nat4 b0 b1 b2 b3)), rest) := by
  simp [parseVal]

theorem parseVal_i64_eq (f b0 b1 b2 b3 b4 b5 b6 b7 : Nat) (rest : List Nat) :
    parseVal (f + 1) 18 (b0 :: b1 :: b2 :: b3 :: b4 :: b5 :: b6 :: b7 :: rest) =
      some (.int (decI64 (nat8 b0 b1 b2 b3 b4 b5 b6 b7)), rest) := by
  simp [parseVal]

theorem parseVal_bool_eq (f b : Nat) (rest : List Nat) :
    parseVal (f + 1) 8 (b :: rest) =
      (if b = 1 then some (.bool true, rest)
       else if b = 0 then some (.bool false, rest) else none) := by
  simp [parseVal]

theorem parseVal_str_eq (f b0 b1 b2 b3 : Nat) (s rest : List Nat)
    (hL : nat4 b0 b1 b2 b3 = s.length + 1) :
    parseVal (f + 1) 2 (b0 :: b1 :: b2 :: b3 :: (s ++ 0 :: rest)) =
      some (.str s, rest) := by
  have hlen : s.length + 1 ≤ (s ++ 0 :: rest).length := by
    simp [List.length_append]
  have hget : (s ++ 0 :: rest)[s.length]? = some 0 := by
    rw [List.getElem?_append_right (Nat.le_refl _)]
    simp
  have htake : (s ++ 0 :: rest).take s.length = s := List.take_left s (0 :: rest)
  have hdrop : (s ++ 0 :: rest).drop (s.length + 1) = rest := by
    rw [List.append_cons]
    have h1 : (s ++ [0]).length = s.length + 1 := by simp
    rw [← h1, List.drop_left]
  have hcond : 1 ≤ s.length + 1 ∧ s.length + 1 ≤ (s ++ 0 :: rest).length ∧
      (s ++ 0 :: rest)[s.length + 1 - 1]? = some 0 := by
    refine ⟨by omega, hlen, ?_⟩
    simpa using hget
  simp only [parseVal, hL]
  rw [if_pos hcond]
  simp [htake, hdrop]

theorem parseVal_doc_eq (f b0 b1 b2 b3 : Nat) (rest r : List Nat) (d : BDoc)
    (h : parseElems f rest = some (d, r)) :
    parseVal (f + 1) 3 (b0 :: b1 :: b2 :: b3 :: rest) = some (.doc d, r) := by
  simp [parseVal, h]

theorem parseVal_arr_eq (f b0 b1 b2 b3 : Nat) (rest r : List Nat) (a : BArr)
    (h : parseArr f rest = some (a, r)) :
    parseVal (f + 1) 4 (b0 :: b1 :: b2 :: b3 :: rest) = some (.arr a, r) := by
  simp [parseVal, h]

theorem parseElems_nil_eq (f : Nat) (rest : List Nat) :
    parseElems (f + 1) (0 :: rest) = some (.nil, rest) := by
  simp [parseElems]

theorem parseElems_cons_eq (f t : Nat) (ht : t ≠ 0) (bs k r1 r2 r3 : List Nat)
    (v : BVal) (d : BDoc) (h1 : readCString bs = some (k, r1))
    (h2 : parseVal f t r1 = some (v, r2)) (h3 : parseElems f r2 = some (d, r3)) :
    parseElems (f + 1) (t :: bs) = some (.cons k v d, r3) := by
  simp [parseElems, ht, h1, h2, h3]

theorem parseArr_nil_eq (f : Nat) (rest : List Nat) :
    parseArr (f + 1) (0 :: rest) = some (.nil, rest) := by
  simp [parseArr]

theorem parseArr_cons_eq (f t : Nat) (ht : t ≠ 0) (bs k r1 r2 r3 : List Nat)
    (v : BVal) (a : BArr) (h1 : readCString bs = some (k, r1))
    (h2 : parseVal f t r1 = some (v, r2)) (h3 : parseArr f r2 = some (a, r3)) :
    parseArr (f + 1) (t :: bs) = some (.cons v a, r3) := by
  simp [parseArr, ht, h1, h2, h3]

mutual
theorem parseVal_encVal (v : BVal) (vb rest : List Nat) (fuel : Nat)
    (h : encVal v = some vb) (hf : bsizeV v ≤ fuel) :
    parseVal fuel (typeByte v) (vb ++ rest) = some (v, rest) := by
  obtain ⟨f, rfl⟩ : ∃ f, fuel = f + 1 := ⟨fuel - 1, by have := bsizeV_pos v; omega⟩
  cases v with
  | int i =>
    unfold encVal at h
    split at h
    · rename_i hc
      cases h
      have ht : typeByte (BVal.int i) = 16 := by simp only [typeByte, if_pos hc]
      rw [ht]
      simp only [i32le, u32le, List.cons_append, List.nil_append]
      rw [parseVal_i32_eq, decI32_i32le hc.1 hc.2]
    · split at h
      · rename_i hc1 hc2
        cases h
        have ht : typeByte (BVal.int i) = 18 := by simp only [typeByte, if_neg hc1]
        rw [ht]
        simp only [i64le, u64le, List.cons_append, List.nil_append]
        rw [parseVal_i64_eq, decI64_i64le hc2.1 hc2.2]
      · cases h
  | str s =>
    unfold encVal at h
    split at h
    · rename_i hc
      cases h
      have hL : nat4 ((s.length + 1) % 256) ((s.length + 1) / 256 % 256)
          ((s.length + 1) / 65536 % 256) ((s.length + 1) / 16777216 % 256) = s.length + 1 :=
        nat4_u32le (by omega)
      have ht : typeByte (BVal.str s) = 2 := rfl
      rw [ht]
      simp only [u32le, List.cons_append, List.nil_append, List.append_assoc,
        List.singleton_append]
      exact parseVal_str_eq f _ _ _ _ s rest hL
    · cases h
  | bool b =>
    unfold encVal at h
    cases h
    have ht : typeByte (BVal.bool b) = 8 := rfl
    rw [ht]
    cases b <;> simp [parseVal_bool_eq]
  | doc d =>
    unfold encVal at h
    split at h
    · split at h
      · rename_i es heq _
        cases h
        have hfd : bsizeD d ≤ f := by
          have h1 : bsizeV (BVal.doc d) = bsizeD d + 1 := rfl
          omega
        have ht : typeByte (BVal.doc d) = 3 := rfl
        rw [ht]
        simp only [u32le, List.cons_append, List.nil_append, List.append_assoc,
          List.singleton_append]
        exact parseVal_doc_eq f _ _ _ _ _ rest d
          (parseElems_encElems d es rest f heq hfd)
      · cases h
    · cases h
  | arr a =>
    unfold encVal at h
    split at h
    · split at h
      · rename_i es heq _
        cases h
        have hfa : bsizeA a ≤ f := by
          have h1 : bsizeV (BVal.arr a) = bsizeA a + 1 := rfl
          omega
        have ht : typeByte (BVal.arr a) = 4 := rfl
        rw [ht]
        simp only [u32le, List.cons_append, List.nil_append, List.append_assoc,
          List.singleton_append]
        exact parseVal_arr_eq f _ _ _ _ _ rest a
          (parseArr_encArrElems a 0 es rest f heq hfa)
      · cases h
    · cases h
termination_by sizeOf v

theorem parseElems_encElems (d : BDoc) (eb rest : List Nat) (fuel : Nat)
    (h : encElems d = some eb) (hf : bsizeD d ≤ fuel) :
    parseElems fuel (eb ++ 0 :: rest) = some (d, rest) := by
  obtain ⟨f, rfl⟩ : ∃ f, fuel = f + 1 := ⟨fuel - 1, by have := bsizeD_pos d; omega⟩
  cases d with
  | nil =>
    unfold encElems at h
    cases h
    simpa using parseElems_nil_eq f rest
  | cons k v r =>
    unfold encElems at h
    split at h
    · cases h
    · rename_i hk
      split at h
      · rename_i vb rb hv hr
        cases h
        have hfv : bsizeV v ≤ f := by
          have h1 : bsizeD (BDoc.cons k v r) = bsizeV v + bsizeD r + 1 := rfl
          have h2 := bsizeD_pos r
          omega
        have hfr : bsizeD r ≤ f := by
          have h1 : bsizeD (BDoc.cons k v r) = bsizeV v + bsizeD r + 1 := rfl
          have h2 := bsizeV_pos v
          omega
        simp only [List.cons_append, List.append_assoc, List.singleton_append]
        exact parseElems_cons_eq f (typeByte v) (typeByte_ne_zero v) _ k _ _ _ v r
          (readCString_append _ hk)
          (parseVal_encVal v vb (rb ++ 0 :: rest) f hv hfv)
          (parseElems_encElems r rb rest f hr hfr)
      · cases h
termination_by sizeOf d

theorem parseArr_encArrElems (a : BArr) (i : Nat) (eb rest : List Nat) (fuel : Nat)
    (h : encArrElems i a = some eb) (hf : bsizeA a ≤ fuel) :
    parseArr fuel (eb ++ 0 :: rest) = some (a, rest) := by
  obtain ⟨f, rfl⟩ : ∃ f, fuel = f + 1 := ⟨fuel - 1, by have := bsizeA_pos a; omega⟩
  cases a with
  | nil =>
    unfold encArrElems at h
    cases h
    simpa using parseArr_nil_eq f rest
  | cons v r =>
    unfold encArrElems at h
    split at h
    · rename_i vb rb hv hr
      cases h
      have hfv : bsizeV v ≤ f := by
        have h1 : bsizeA (BArr.cons v r) = bsizeV v + bsizeA r + 1 := rfl
        have h2 := bsizeA_pos r
        omega
      have hfr : bsizeA r ≤ f := by
        have h1 : bsizeA (BArr.cons v r) = bsizeV v + bsizeA r + 1 := rfl
        have h2 := bsizeV_pos v
        omega
      simp only [List.cons_append, List.append_assoc, List.singleton_append]
      exact parseArr_cons_eq f (typeByte v) (typeByte_ne_zero v) _ (decimalBytes i) _ _ _ v r
        (readCString_append _ (zero_not_mem_decimalBytes i))
        (parseVal_encVal v vb (rb ++ 0 :: rest) f hv hfv)
        (parseArr_encArrElems r (i + 1) rb rest f hr hfr)
    · cases h
termination_by sizeOf a
end

theorem bsonDecode_eq (b0 b1 b2 b3 : Nat) (rest : List Nat) (d : BDoc) (L : Nat)
    (hL : nat4 b0 b1 b2 b3 = L) (hlen : (b0 :: b1 :: b2 :: b3 :: rest).length = L)
    (hp : parseElems L rest = some (d, [])) :
    bsonDecode (b0 :: b1 :: b2 :: b3 :: rest) = some d := by
  simp [bsonDecode, hL, hlen, hp]

/-- Whole-document BSON roundtrip: `bson.BSON(bson.BSON.encode(d)).decode()`
recovers `d`. -/
theorem bsonDecode_encDoc (d : BDoc) (db : List Nat) (h : encDoc d = some db) :
    bsonDecode db = some d := by
  unfold encDoc at h
  split at h
  · rename_i es heq
    split at h
    · rename_i hsz
      cases h
      have hfd : bsizeD d ≤ es.length + 5 := by
        have := bsizeD_le_encElems d es heq
        omega
      have hp : parseElems (es.length + 5) (es ++ 0 :: []) = some (d, []) :=
        parseElems_encElems d es [] (es.length + 5) heq hfd
      show bsonDecode ((es.length + 5) % 256 :: (es.length + 5) / 256 % 256 ::
        (es.length + 5) / 65536 % 256 :: (es.length + 5) / 16777216 % 256 ::
        (es ++ [0])) = some d
      exact bsonDecode_eq _ _ _ _ _ d (es.length + 5)
        (nat4_u32le (by omega)) (by simp) hp
    · cases h
  · cases h

theorem encDoc_length_lt (d : BDoc) (db : List Nat) (h : encDoc d = some db) :
    db.length < 2147483648 := by
  unfold encDoc at h
  split at h
  · split at h
    · rename_i es heq hsz
      cases h
      simp [u32le]
      omega
    · cases h
  · cases h

theorem encDoc_ne_nil (d : BDoc) (db : List Nat) (h : encDoc d = some db) :
    db ≠ [] := by
  unfold encDoc at h
  split at h
  · split at h
    · cases h
      simp [u32le]
    · cases h
  · cases h

theorem drop_len_append {l1 l2 : List Nat} {n : Nat} (h : l1.length = n) :
    (l1 ++ l2).drop n = l2 := by
  rw [← h, List.drop_left]

theorem take_len_append {l1 l2 : List Nat} {n : Nat} (h : l1.length = n) :
    (l1 ++ l2).take n = l1 := by
  rw [← h, List.take_left]

theorem byteAt_append_right {l1 l2 : List Nat} {i : Nat} (h : l1.length ≤ i) :
    byteAt (l1 ++ l2) i = byteAt l2 (i - l1.length) :=
  List.getD_append_right l1 l2 0 i h

theorem byteAt_append_left {l1 l2 : List Nat} {i : Nat} (h : i < l1.length) :
    byteAt (l1 ++ l2) i = byteAt l1 i :=
  List.getD_append l1 l2 0 i h

theorem methodWire_length (m : List Nat) : (methodWire m).length = 11 := by
  unfold methodWire
  simp [List.length_take]
  omega

theorem methodWire_eq_of_le {m : List Nat} (h : m.length ≤ 11) :
    methodWire m = m ++ List.replicate (11 - m.length) 0 := by
  unfold methodWire
  apply List.take_of_length_le
  simp
  omega

theorem i16le_length (i : Int) : (i16le i).length = 2 := rfl

theorem drop6_append {A B : List Nat} (X : List Nat) (hA : A.length = 4)
    (hB : B.length = 2) : (A ++ (B ++ X)).drop 6 = X := by
  rw [← List.append_assoc]
  exact drop_len_append (by simp [hA, hB])

theorem drop22_append {A B M L : List Nat} (bt : Nat) (R : List Nat)
    (hA : A.length = 4) (hB : B.length = 2) (hM : M.length = 11)
    (hL : L.length = 4) :
    (A ++ (B ++ (M ++ (bt :: (L ++ R))))).drop 22 = R := by
  have hsplit : A ++ (B ++ (M ++ (bt :: (L ++ R)))) =
      (A ++ (B ++ (M ++ (bt :: L)))) ++ R := by
    simp
  rw [hsplit]
  exact drop_len_append (by simp [hA, hB, hM, hL])

theorem byteAt_after17 {A B M Y : List Nat} (i : Nat)
    (hA : A.length = 4) (hB : B.length = 2) (hM : M.length = 11) (hi : 17 ≤ i) :
    byteAt (A ++ (B ++ (M ++ Y))) i = byteAt Y (i - 17) := by
  rw [byteAt_append_right (by omega), hA, byteAt_append_right (by omega), hB,
    byteAt_append_right (by omega), hM]
  congr 1

theorem byteAt_at45 {A B : List Nat} (X : List Nat) (i : Nat) (hA : A.length = 4)
    (hB : B.length = 2) (hi : 4 ≤ i) (hi2 : i < 6) :
    byteAt (A ++ (B ++ X)) i = byteAt B (i - 4) := by
  rw [byteAt_append_right (by omega), hA, byteAt_append_left (by omega)]

theorem byteAt_first4 {A : List Nat} (X : List Nat) (i : Nat) (hA : A.length = 4)
    (hi : i < 4) : byteAt (A ++ X) i = byteAt A i :=
  byteAt_append_left (by omega)

/-- Packet-level roundtrip: decoding an encoded packet recovers the packet,
provided the method is at most 11 bytes and does not end in a null byte
(`rstrip` cannot tell trailing method nulls from padding). -/
theorem LocoPacket.decode_encode (p : LocoPacket) (data : List Nat)
    (h : p.encode = some data) (hlen11 : p.method.length ≤ 11)
    (htrail : p.method.getLast? ≠ some 0) :
    LocoPacket.decode data = Except.ok p := by
  obtain ⟨pid, st, m, bt, body⟩ := p
  unfold LocoPacket.encode at h
  split at h
  · cases h
  · rename_i bb hbb
    split at h
    · rename_i hc
      obtain ⟨hid, hst1, hst2, hbt, hascii⟩ := hc
      cases h
      simp only at hlen11 htrail hascii hbb hid hst1 hst2 hbt
      have hbbne : bb ≠ [] := encDoc_ne_nil body bb hbb
      have hbblt : bb.length < 2147483648 := encDoc_length_lt body bb hbb
      have hmw : methodWire m = m ++ List.replicate (11 - m.length) 0 :=
        methodWire_eq_of_le hlen11
      have hM : (methodWire m).length = 11 := methodWire_length m
      simp only [List.append_assoc, List.singleton_append, List.cons_append,
        List.nil_append]
      obtain ⟨D, hD⟩ : ∃ D' : List Nat, D' = u32le pid ++ (i16le st ++
          (methodWire m ++ (bt :: (u32le bb.length ++ bb)))) := ⟨_, rfl⟩
      rw [← hD]
      have hdlen : D.length = 22 + bb.length := by
        rw [hD]
        simp [u32le, i16le, hM]
        omega
      have hdrop6 : D.drop 6 = methodWire m ++ (bt :: (u32le bb.length ++ bb)) := by
        rw [hD]
        exact drop6_append _ (u32le_length pid) (i16le_length st)
      have hdrop22 : D.drop 22 = bb := by
        rw [hD]
        exact drop22_append bt bb (u32le_length pid) (i16le_length st) hM
          (u32le_length bb.length)
      have htake11 : (methodWire m ++ (bt :: (u32le bb.length ++ bb))).take 11 =
          methodWire m := take_len_append hM
      have e0 : byteAt D 0 = pid % 256 := by
        rw [hD, byteAt_first4 _ 0 (u32le_length pid) (by omega)]; rfl
      have e1 : byteAt D 1 = pid / 256 % 256 := by
        rw [hD, byteAt_first4 _ 1 (u32le_length pid) (by omega)]; rfl
      have e2 : byteAt D 2 = pid / 65536 % 256 := by
        rw [hD, byteAt_first4 _ 2 (u32le_length pid) (by omega)]; rfl
      have e3 : byteAt D 3 = pid / 16777216 % 256 := by
        rw [hD, byteAt_first4 _ 3 (u32le_length pid) (by omega)]; rfl
      have e4 : byteAt D 4 = (st % 65536).toNat % 256 := by
        rw [hD, byteAt_at45 _ 4 (u32le_length pid) (i16le_length st) (by omega)
          (by omega)]
        rfl
      have e5 : byteAt D 5 = (st % 65536).toNat / 256 % 256 := by
        rw [hD, byteAt_at45 _ 5 (u32le_length pid) (i16le_length st) (by omega)
          (by omega)]
        rfl
      have e17 : byteAt D 17 = bt := by
        rw [hD, byteAt_after17 17 (u32le_length pid) (i16le_length st) hM
          (by omega)]
        rfl
      have e18 : byteAt D 18 = bb.length % 256 := by
        rw [hD, byteAt_after17 18 (u32le_length pid) (i16le_length st) hM
          (by omega)]
        rfl
      have e19 : byteAt D 19 = bb.length / 256 % 256 := by
        rw [hD, byteAt_after17 19 (u32le_length pid) (i16le_length st) hM
          (by omega)]
        rfl
      have e20 : byteAt D 20 = bb.length / 65536 % 256 := by
        rw [hD, byteAt_after17 20 (u32le_length pid) (i16le_length st) hM
          (by omega)]
        rfl
      have e21 : byteAt D 21 = bb.length / 16777216 % 256 := by
        rw [hD, byteAt_after17 21 (u32le_length pid) (i16le_length st) hM
          (by omega)]
        rfl
      simp only [LocoPacket.decode, HEADER_SIZE]
      rw [hdlen]
      rw [if_neg (by omega)]
      rw [hdrop6, htake11, hmw, rstrip0_append_replicate _ htrail]
      rw [if_pos hascii]
      rw [e18, e19, e20, e21, nat4_u32le (by omega)]
      rw [hdrop22, List.take_length]
      rw [if_neg hbbne]
      rw [bsonDecode_encDoc body bb hbb]
      rw [e0, e1, e2, e3, nat4_u32le (by omega)]
      rw [e4, e5, decI16_i16le hst1 hst2]
      rw [e17]
    · cases h

theorem xorBytes_length (a b : List Nat) :
    (xorBytes a b).length = min a.length b.length := by
  simp [xorBytes]

theorem xorBytes_cancel {a k : List Nat} (h : a.length ≤ k.length) :
    xorBytes (xorBytes a k) k = a := by
  induction a generalizing k with
  | nil => simp [xorBytes]
  | cons x xs ih =>
    cases k with
    | nil => simp at h
    | cons y ys =>
      simp only [List.length_cons, Nat.add_le_add_iff_right] at h
      simp only [xorBytes, List.zipWith_cons_cons]
      have hx : (x.xor y).xor y = x := Nat.xor_cancel_right y x
      rw [hx]
      exact congrArg (x :: ·) (ih h)

/-- CFB is length-preserving: the ciphertext has exactly the plaintext's
length (for a 16-byte block function). -/
theorem cfbEncrypt_length (E : List Nat → List Nat)
    (hE : ∀ x, (E x).length = 16) (prev pt : List Nat) :
    (cfbEncrypt E prev pt).length = pt.length := by
  by_cases h0 : pt = []
  · simp [h0, cfbEncrypt]
  · rw [cfbEncrypt]
    simp only [h0, if_false, if_neg]
    have hlen : (xorBytes (pt.take 16) (E prev)).length = min pt.length 16 := by
      rw [xorBytes_length, hE, List.length_take]
      omega
    have hrec := cfbEncrypt_length E hE (xorBytes (pt.take 16) (E prev)) (pt.drop 16)
    simp only [List.length_append, hrec, hlen, List.length_drop]
    have : pt.length ≠ 0 := fun hh => h0 (List.length_eq_zero.mp hh)
    omega
termination_by pt.length
decreasing_by
  have : pt.length ≠ 0 := fun hh => h0 (List.length_eq_zero.mp hh)
  simp
  omega

/-- CFB decryption inverts CFB encryption for any block function with
16-byte outputs. -/
theorem cfbDecrypt_cfbEncrypt (E : List Nat → List Nat)
    (hE : ∀ x, (E x).length = 16) (prev pt : List Nat) :
    cfbDecrypt E prev (cfbEncrypt E prev pt) = pt := by
  by_cases h0 : pt = []
  · simp [h0, cfbEncrypt, cfbDecrypt]
  · rw [cfbEncrypt]
    simp only [h0, if_neg, if_false]
    have hptpos : pt.length ≠ 0 := fun hh => h0 (List.length_eq_zero.mp hh)
    have htk : (pt.take 16).length ≤ 16 := by
      simp [List.length_take]
    have hc : (xorBytes (pt.take 16) (E prev)).length = min pt.length 16 := by
      rw [xorBytes_length, hE, List.length_take]
      omega
    have hcanc : xorBytes (xorBytes (pt.take 16) (E prev)) (E prev) = pt.take 16 :=
      xorBytes_cancel (by rw [hE]; exact htk)
    by_cases h16 : pt.length ≤ 16
    · have hdrop : pt.drop 16 = [] := List.drop_eq_nil_of_le h16
      rw [hdrop]
      rw [show cfbEncrypt E (xorBytes (pt.take 16) (E prev)) [] = [] from by
        simp [cfbEncrypt]]
      rw [List.append_nil]
      rw [cfbDecrypt]
      have hcne : xorBytes (pt.take 16) (E prev) ≠ [] := by
        intro hh
        rw [hh] at hc
        simp at hc
        omega
      rw [if_neg hcne]
      have htkc : (xorBytes (pt.take 16) (E prev)).take 16 =
          xorBytes (pt.take 16) (E prev) :=
        List.take_of_length_le (by omega)
      rw [htkc, hcanc]
      have hdc : (xorBytes (pt.take 16) (E prev)).drop 16 = [] :=
        List.drop_eq_nil_of_le (by omega)
      rw [hdc]
      rw [show cfbDecrypt E (xorBytes (pt.take 16) (E prev)) [] = [] from by
        simp [cfbDecrypt]]
      rw [List.append_nil]
      exact List.take_of_length_le h16
    · have hc16 : (xorBytes (pt.take 16) (E prev)).length = 16 := by omega
      rw [cfbDecrypt]
      have hne : xorBytes (pt.take 16) (E prev) ++
          cfbEncrypt E (xorBytes (pt.take 16) (E prev)) (pt.drop 16) ≠ [] := by
        intro hh
        have := congrArg List.length hh
        simp [hc16] at this
      rw [if_neg hne]
      rw [take_len_append hc16, drop_len_append hc16, hcanc]
      rw [cfbDecrypt_cfbEncrypt E hE (xorBytes (pt.take 16) (E prev)) (pt.drop 16)]
      exact List.take_append_drop 16 pt
termination_by pt.length
decreasing_by
  simp
  omega

theorem rstrip0_subset (l : List Nat) : rstrip0 l ⊆ l := by
  unfold rstrip0
  intro x hx
  rw [List.mem_reverse] at hx
  have := (List.dropWhile_sublist (fun b => b = 0) (l := l.reverse)).subset hx
  rwa [List.mem_reverse] at this

theorem mem_methodWire {b : Nat} {m : List Nat} (hb : b ∈ methodWire m) :
    b ∈ m ∨ b = 0 := by
  unfold methodWire at hb
  have hb2 := (List.take_sublist 11 _).subset hb
  rw [List.mem_append] at hb2
  rcases hb2 with h | h
  · exact Or.inl h
  · exact Or.inr (List.eq_of_mem_replicate h)

/-- C5: `decode_header` applied to exactly the first 22 bytes of an encoded
packet returns the packet's id, status, method (the wire's truncated,
null-padded method field with the padding stripped), body type, and a
`bodyLength` equal to the exact byte length of the serialized body, the
fields being laid out little-endian as id:u32, status:i16, method:[11]byte,
bodyType:u8, bodyLength:u32 (the layout `LocoPacket.encode` produces). -/
theorem c5_decode_header (p : LocoPacket) (data bb : List Nat)
    (h : p.encode = some data) (hbb : encDoc p.body = some bb) :
    LocoPacket.decode_header (data.take 22) =
      Except.ok (p.packet_id, p.status_code, rstrip0 (methodWire p.method),
        p.body_type, bb.length) := by
  obtain ⟨pid, st, m, bt, body⟩ := p
  unfold LocoPacket.encode at h
  split at h
  · cases h
  · rename_i bb2 hbb2
    simp only at hbb2 hbb
    rw [hbb] at hbb2
    cases hbb2
    split at h
    · rename_i hc
      obtain ⟨hid, hst1, hst2, hbt, hascii⟩ := hc
      cases h
      simp only at hascii hid hst1 hst2 hbt ⊢
      have hM : (methodWire m).length = 11 := methodWire_length m
      simp only [List.append_assoc, List.singleton_append, List.cons_append,
        List.nil_append]
      have hsplit : u32le pid ++ (i16le st ++ (methodWire m ++
          (bt :: (u32le bb.length ++ bb)))) =
          (u32le pid ++ (i16le st ++ (methodWire m ++ (bt :: u32le bb.length)))) ++ bb := by
        simp
      rw [hsplit]
      rw [take_len_append (by simp [u32le, i16le, hM])]
      obtain ⟨D, hD⟩ : ∃ D' : List Nat, D' = u32le pid ++ (i16le st ++
          (methodWire m ++ (bt :: u32le bb.length))) := ⟨_, rfl⟩
      rw [← hD]
      have hdlen : D.length = 22 := by
        rw [hD]
        simp [u32le, i16le, hM]
      have hdrop6 : D.drop 6 = methodWire m ++ (bt :: u32le bb.length) := by
        rw [hD]
        exact drop6_append _ (u32le_length pid) (i16le_length st)
      have htake11 : (methodWire m ++ (bt :: u32le bb.length)).take 11 =
          methodWire m := take_len_append hM
      have e0 : byteAt D 0 = pid % 256 := by
        rw [hD, byteAt_first4 _ 0 (u32le_length pid) (by omega)]; rfl
      have e1 : byteAt D 1 = pid / 256 % 256 := by
        rw [hD, byteAt_first4 _ 1 (u32le_length pid) (by omega)]; rfl
      have e2 : byteAt D 2 = pid / 65536 % 256 := by
        rw [hD, byteAt_first4 _ 2 (u32le_length pid) (by omega)]; rfl
      have e3 : byteAt D 3 = pid / 16777216 % 256 := by
        rw [hD, byteAt_first4 _ 3 (u32le_length pid) (by omega)]; rfl
      have e4 : byteAt D 4 = (st % 65536).toNat % 256 := by
        rw [hD, byteAt_at45 _ 4 (u32le_length pid) (i16le_length st) (by omega)
          (by omega)]
        rfl
      have e5 : byteAt D 5 = (st % 65536).toNat / 256 % 256 := by
        rw [hD, byteAt_at45 _ 5 (u32le_length pid) (i16le_length st) (by omega)
          (by omega)]
        rfl
      have e17 : byteAt D 17 = bt := by
        rw [hD, byteAt_after17 17 (u32le_length pid) (i16le_length st) hM
          (by omega)]
        rfl
      have e18 : byteAt D 18 = bb.length % 256 := by
        rw [hD, byteAt_after17 18 (u32le_length pid) (i16le_length st) hM
          (by omega)]
        rfl
      have e19 : byteAt D 19 = bb.length / 256 % 256 := by
        rw [hD, byteAt_after17 19 (u32le_length pid) (i16le_length st) hM
          (by omega)]
        rfl
      have e20 : byteAt D 20 = bb.length / 65536 % 256 := by
        rw [hD, byteAt_after17 20 (u32le_length pid) (i16le_length st) hM
          (by omega)]
        rfl
      have e21 : byteAt D 21 = bb.length / 16777216 % 256 := by
        rw [hD, byteAt_after17 21 (u32le_length pid) (i16le_length st) hM
          (by omega)]
        rfl
      have hbblt : bb.length < 2147483648 := encDoc_length_lt body bb hbb
      have hasciiW : ∀ b ∈ rstrip0 ((D.drop 6).take 11), b < 128 := by
        intro b hbmem
        rw [hdrop6, htake11] at hbmem
        have := rstrip0_subset _ hbmem
        rcases mem_methodWire this with h' | h'
        · exact hascii b h'
        · omega
      simp only [LocoPacket.decode_header, HEADER_SIZE]
      rw [hdlen]
      rw [if_neg (by omega)]
      rw [if_pos hasciiW]
      rw [hdrop6, htake11]
      rw [e18, e19, e20, e21, nat4_u32le (by omega)]
      rw [e0, e1, e2, e3, nat4_u32le (by omega)]
      rw [e4, e5, decI16_i16le hst1 hst2]
      rw [e17]
    · cases h

/-- C1 (counterexample): on a 22-byte input whose header declares a body of
100 bytes while zero body bytes are present, `decode` does not fail — it
returns a packet with an empty (substituted) body, contradicting the claim
that a declared body length exceeding the available bytes is rejected. -/
theorem c1_counterexample :
    c1data.length = 22 ∧
    nat4 (byteAt c1data 18) (byteAt c1data 19) (byteAt c1data 20)
      (byteAt c1data 21) = 100 ∧
    (c1data.drop 22).length = 0 ∧
    LocoPacket.decode c1data = Except.ok ⟨1, 0, [88], 0, BDoc.nil⟩ :=
  ⟨rfl, rfl, rfl, rfl⟩

/-- C1 (amended): `decode` fails with a format error exactly on inputs of
fewer than 22 bytes; when the declared body length exceeds the bytes
actually present, the body slice is silently truncated to what is there —
in particular a header-only input with any positive declared length decodes
successfully to a packet with an empty body. -/
theorem c1_amended :
    (∀ data : List Nat, data.length < 22 →
      LocoPacket.decode data = Except.error "Data too short") ∧
    (∀ (pid : Nat) (st : Int) (m : List Nat) (bt L : Nat),
      pid < 4294967296 → -32768 ≤ st → st < 32768 → L < 4294967296 →
      m.length ≤ 11 → m.getLast? ≠ some 0 → (∀ b ∈ m, b < 128) →
      LocoPacket.decode (u32le pid ++ (i16le st ++ (methodWire m ++
        (bt :: u32le L)))) = Except.ok ⟨pid, st, m, bt, BDoc.nil⟩) := by
  constructor
  · intro data hshort
    simp [LocoPacket.decode, HEADER_SIZE, hshort]
  · intro pid st m bt L hid hst1 hst2 hL hm11 htrail hascii
    have hM : (methodWire m).length = 11 := methodWire_length m
    have hmw : methodWire m = m ++ List.replicate (11 - m.length) 0 :=
      methodWire_eq_of_le hm11
    obtain ⟨D, hD⟩ : ∃ D' : List Nat, D' = u32le pid ++ (i16le st ++
        (methodWire m ++ (bt :: u32le L))) := ⟨_, rfl⟩
    rw [← hD]
    have hdlen : D.length = 22 := by
      rw [hD]
      simp [u32le, i16le, hM]
    have hdrop6 : D.drop 6 = methodWire m ++ (bt :: u32le L) := by
      rw [hD]
      exact drop6_append _ (u32le_length pid) (i16le_length st)
    have hdrop22 : D.drop 22 = [] := List.drop_eq_nil_of_le (by omega)
    have htake11 : (methodWire m ++ (bt :: u32le L)).take 11 = methodWire m :=
      take_len_append hM
    have e0 : byteAt D 0 = pid % 256 := by
      rw [hD, byteAt_first4 _ 0 (u32le_length pid) (by omega)]; rfl
    have e1 : byteAt D 1 = pid / 256 % 256 := by
      rw [hD, byteAt_first4 _ 1 (u32le_length pid) (by omega)]; rfl
    have e2 : byteAt D 2 = pid / 65536 % 256 := by
      rw [hD, byteAt_first4 _ 2 (u32le_length pid) (by omega)]; rfl
    have e3 : byteAt D 3 = pid / 16777216 % 256 := by
      rw [hD, byteAt_first4 _ 3 (u32le_length pid) (by omega)]; rfl
    have e4 : byteAt D 4 = (st % 65536).toNat % 256 := by
      rw [hD, byteAt_at45 _ 4 (u32le_length pid) (i16le_length st) (by omega)
        (by omega)]
      rfl
    have e5 : byteAt D 5 = (st % 65536).toNat / 256 % 256 := by
      rw [hD, byteAt_at45 _ 5 (u32le_length pid) (i16le_length st) (by omega)
        (by omega)]
      rfl
    have e17 : byteAt D 17 = bt := by
      rw [hD, byteAt_after17 17 (u32le_length pid) (i16le_length st) hM
        (by omega)]
      rfl
    have e18 : byteAt D 18 = L % 256 := by
      rw [hD, byteAt_after17 18 (u32le_length pid) (i16le_length st) hM
        (by omega)]
      rfl
    have e19 : byteAt D 19 = L / 256 % 256 := by
      rw [hD, byteAt_after17 19 (u32le_length pid) (i16le_length st) hM
        (by omega)]
      rfl
    have e20 : byteAt D 20 = L / 65536 % 256 := by
      rw [hD, byteAt_after17 20 (u32le_length pid) (i16le_length st) hM
        (by omega)]
      rfl
    have e21 : byteAt D 21 = L / 16777216 % 256 := by
      rw [hD, byteAt_after17 21 (u32le_length pid) (i16le_length st) hM
        (by omega)]
      rfl
    simp only [LocoPacket.decode, HEADER_SIZE]
    rw [hdlen]
    rw [if_neg (by omega)]
    rw [hdrop6, htake11, hmw, rstrip0_append_replicate _ htrail]
    rw [if_pos hascii]
    rw [e18, e19, e20, e21, nat4_u32le (by omega)]
    rw [hdrop22, List.take_nil]
    rw [if_pos rfl]
    rw [e0, e1, e2, e3, nat4_u32le (by omega)]
    rw [e4, e5, decI16_i16le hst1 hst2]
    rw [e17]

/-- Witness for C1 (amended): a 3-byte input is rejected; a header-only
input declaring 100 body bytes decodes to a packet with an empty body. -/
theorem c1_amended_witness :
    LocoPacket.decode [0, 0, 0] = Except.error "Data too short" ∧
    LocoPacket.decode (u32le 1 ++ (i16le 0 ++ (methodWire [88] ++
      (0 :: u32le 100)))) = Except.ok ⟨1, 0, [88], 0, BDoc.nil⟩ :=
  ⟨c1_amended.1 [0, 0, 0] (by decide),
   c1_amended.2 1 0 [88] 0 100 (by decide) (by decide) (by decide) (by decide)
     (by decide) (by decide) (by decide)⟩

/-- C4 (counterexample): the packet with the two-byte ASCII method
`"A\x00"` — within the claim's scope of ASCII methods of at most 11
bytes — does not survive the roundtrip: decoding its encoding yields the
method `"A"`, because `decode` strips all trailing nulls, padding or not. -/
theorem c4_counterexample :
    (∀ b ∈ c4pkt.method, b < 128) ∧ c4pkt.method.length ≤ 11 ∧
    LocoPacket.encode c4pkt = some c4data ∧
    LocoPacket.decode c4data = Except.ok ⟨1, 0, [65], 0, BDoc.nil⟩ ∧
    (⟨1, 0, [65], 0, BDoc.nil⟩ : LocoPacket) ≠ c4pkt :=
  ⟨by decide, by decide, by decide, by decide, by decide⟩

/-- C4 (amended): for every packet whose encoding succeeds (ASCII method,
in-range header fields, BSON-encodable body) with a method of at most 11
bytes that does not end in a NUL byte, decoding the encoding returns the
packet itself. -/
theorem c4_roundtrip (p : LocoPacket) (data : List Nat)
    (h : p.encode = some data) (hlen : p.method.length ≤ 11)
    (htrail : p.method.getLast? ≠ some 0) :
    LocoPacket.decode data = Except.ok p :=
  LocoPacket.decode_encode p data h hlen htrail

/-- Witness for C4 (amended) at a packet with a heterogeneous body. -/
theorem c4_roundtrip_witness : LocoPacket.decode c4wData = Except.ok c4wPkt :=
  c4_roundtrip c4wPkt c4wData (by decide) (by decide) (by decide)

/-- Witness for C5 at a concrete `PING` packet: the decoded header reports
the empty document's exact 5-byte length. -/
theorem c5_witness :
    LocoPacket.decode_header (c5data.take 22) =
      Except.ok (3, 0, [80, 73, 78, 71], 0, 5) :=
  c5_decode_header c5pkt c5data ((encDoc BDoc.nil).getD []) (by decide) (by decide)

/-- C6: for one secure channel (one channel key, hence one block function
`E`), decrypting the frame body after the 4-byte size prefix recovers the
plaintext; the frame is exactly `u32le (16 + len ct) || iv || ct`; and two
encrypt calls on the same plaintext whose fresh random IVs differ never
produce identical frames. -/
theorem c6_encrypt_roundtrip (E : List Nat → List Nat)
    (hE : ∀ x, (E x).length = 16) (iv pt frame : List Nat)
    (hiv : iv.length = 16) (henc : LocoEncryptor.encrypt E iv pt = some frame) :
    LocoEncryptor.decrypt E (frame.drop 4) = pt ∧
    frame = u32le (16 + (cfbEncrypt E iv pt).length) ++ iv ++ cfbEncrypt E iv pt ∧
    (∀ iv' frame', iv'.length = 16 → iv' ≠ iv →
      LocoEncryptor.encrypt E iv' pt = some frame' → frame' ≠ frame) := by
  have hframe : frame =
      u32le (16 + (cfbEncrypt E iv pt).length) ++ iv ++ cfbEncrypt E iv pt := by
    simp only [LocoEncryptor.encrypt] at henc
    split at henc
    · injection henc with h
      rw [← h, hiv]
    · cases henc
  have hdrop : frame.drop 4 = iv ++ cfbEncrypt E iv pt := by
    rw [hframe, List.append_assoc]
    exact drop_len_append (u32le_length _)
  refine ⟨?_, hframe, ?_⟩
  · rw [hdrop]
    unfold LocoEncryptor.decrypt
    rw [take_len_append hiv, drop_len_append hiv]
    exact cfbDecrypt_cfbEncrypt E hE iv pt
  · intro iv' frame' hiv' hne henc' heq
    have hframe' : frame' =
        u32le (16 + (cfbEncrypt E iv' pt).length) ++ iv' ++ cfbEncrypt E iv' pt := by
      simp only [LocoEncryptor.encrypt] at henc'
      split at henc'
      · injection henc' with h
        rw [← h, hiv']
      · cases henc'
    have hdrop' : frame'.drop 4 = iv' ++ cfbEncrypt E iv' pt := by
      rw [hframe', List.append_assoc]
      exact drop_len_append (u32le_length _)
    have h1 : (frame.drop 4).take 16 = iv := by
      rw [hdrop]; exact take_len_append hiv
    have h2 : (frame'.drop 4).take 16 = iv' := by
      rw [hdrop']; exact take_len_append hiv'
    rw [heq, h1] at h2
    exact hne h2.symm

theorem c6_encrypt_eq : LocoEncryptor.encrypt c6E c6iv [1, 2, 3] = some c6frame := by
  rw [LocoEncryptor.encrypt]
  rw [cfbEncrypt]
  norm_num [xorBytes, c6E, c6iv]
  rw [cfbEncrypt]
  decide

/-- Witness for C6: the 3-byte plaintext roundtrips through the channel. -/
theorem c6_witness : LocoEncryptor.decrypt c6E (c6frame.drop 4) = [1, 2, 3] :=
  (c6_encrypt_roundtrip c6E (fun x => by simp [c6E]) c6iv [1, 2, 3] c6frame
    (by simp [c6iv]) c6_encrypt_eq).1

/-- C10: CFB with 128-bit segments is length-preserving, so the ciphertext
portion has exactly the plaintext's length, the size field is
`u32le (16 + len m)`, and the whole frame is `20 + len m` bytes. -/
theorem c10_cfb_length_preserving (E : List Nat → List Nat)
    (hE : ∀ x, (E x).length = 16) (iv pt frame : List Nat)
    (hiv : iv.length = 16) (henc : LocoEncryptor.encrypt E iv pt = some frame) :
    (cfbEncrypt E iv pt).length = pt.length ∧
    frame.length = 20 + pt.length ∧
    frame.take 4 = u32le (16 + pt.length) := by
  have hlen := cfbEncrypt_length E hE iv pt
  have hframe : frame = u32le (16 + pt.length) ++ iv ++ cfbEncrypt E iv pt := by
    simp only [LocoEncryptor.encrypt] at henc
    split at henc
    · injection henc with h
      rw [← h, hiv, hlen]
    · cases henc
  refine ⟨hlen, ?_, ?_⟩
  · rw [hframe]
    simp [u32le, hiv, hlen]
    omega
  · rw [hframe, List.append_assoc]
    exact take_len_append (u32le_length _)

theorem c10_encrypt_eq :
    LocoEncryptor.encrypt c6E c10iv [250, 251] = some c10frame := by
  rw [LocoEncryptor.encrypt]
  rw [cfbEncrypt]
  norm_num [xorBytes, c6E, c10iv]
  rw [cfbEncrypt]
  decide

/-- Witness for C10: a 2-byte plaintext gives a 22-byte frame. -/
theorem c10_witness : c10frame.length = 20 + 2 :=
  (c10_cfb_length_preserving c6E (fun x => by simp [c6E]) c10iv [250, 251]
    c10frame (by simp [c10iv]) c10_encrypt_eq).2.1

set_option exponentiation.threshold 4100 in
set_option maxRecDepth 100000 in
/-- C7: the handshake blob is the three little-endian u32 constants 256, 16
and 2 followed by the RSA ciphertext of the channel key; for the embedded
2048-bit key the OAEP ciphertext is 256 bytes, making the blob exactly 268
bytes. The embedded base64 DER constant really decodes to an RSA public key
with a 2048-bit modulus (and exponent 3). -/
theorem c7_handshake (rsaEnc : List Nat → List Nat) (aes_key : List Nat)
    (hrsa : (rsaEnc aes_key).length = 256) :
    LocoEncryptor.build_handshake_packet rsaEnc aes_key =
      u32le 256 ++ u32le 16 ++ u32le 2 ++ rsaEnc aes_key ∧
    (LocoEncryptor.build_handshake_packet rsaEnc aes_key).length = 268 ∧
    locoRsaKey = some (locoRsaModulus, 3) ∧
    2 ^ 2047 ≤ locoRsaModulus ∧ locoRsaModulus < 2 ^ 2048 := by
  refine ⟨rfl, ?_, by decide, by decide, by decide⟩
  simp [LocoEncryptor.build_handshake_packet, u32le, hrsa, HANDSHAKE_KEY_SIZE,
    HANDSHAKE_KEY_ENCRYPT_TYPE, HANDSHAKE_ENCRYPT_TYPE]

/-- Witness for C7: the handshake blob is 268 bytes. -/
theorem c7_witness :
    (LocoEncryptor.build_handshake_packet c7rsaEnc (List.replicate 16 0)).length =
      268 :=
  (c7_handshake c7rsaEnc (List.replicate 16 0) (by simp [c7rsaEnc])).2.1

/-- C2 (code behavior at the failing scenario): after a `send` registers
slot 1 and the 30-second `wait_for` deadline passes, the pending map still
holds the entry (now a cancelled future) — nothing removed it; when the
late reply for id 1 then arrives, the receive loop pops the entry and
calls `set_result` on the cancelled future, raising `InvalidStateError`,
which the loop's blanket exception handler treats as fatal: the loop ends
with `connected = false` instead of silently dropping the reply. -/
theorem c2_timeout_behavior :
    dictGet (timeoutSlot (registerSlot ⟨[], [], true⟩ 1) 1).pending 1 =
      some .cancelled ∧
    recvStep (timeoutSlot (registerSlot ⟨[], [], true⟩ 1) 1)
      ⟨1, 0, asciiBytes "MSG", 0, BDoc.nil⟩ =
      (⟨[], [], false⟩, .loopCrashed) ∧
    SEND_TIMEOUT_SECONDS = 30 :=
  ⟨rfl, rfl, rfl⟩

theorem lookupHandlers_cons (k : List Nat) (hl : List Handler)
    (rest : PushHandlers) (method : List Nat) :
    lookupHandlers ((k, hl) :: rest) method =
      if k = method then hl else lookupHandlers rest method := rfl

theorem hasMethod_cons (k : List Nat) (hl : List Handler) (rest : PushHandlers)
    (method : List Nat) :
    hasMethod ((k, hl) :: rest) method =
      if k = method then true else hasMethod rest method := rfl

theorem appendHandler_cons (k : List Nat) (hl : List Handler)
    (rest : PushHandlers) (method : List Nat) (h : Handler) :
    appendHandler ((k, hl) :: rest) method h =
      if k = method then (k, hl ++ [h]) :: rest
      else (k, hl) :: appendHandler rest method h := rfl

theorem lookupHandlers_eq_nil {hs : PushHandlers} {method : List Nat}
    (h : hasMethod hs method = false) : lookupHandlers hs method = [] := by
  induction hs with
  | nil => rfl
  | cons kv rest ih =>
    obtain ⟨k, hl⟩ := kv
    rw [hasMethod_cons] at h
    rw [lookupHandlers_cons]
    by_cases hk : k = method
    · rw [if_pos hk] at h; cases h
    · rw [if_neg hk] at h
      rw [if_neg hk]
      exact ih h

theorem lookupHandlers_append_right {hs : PushHandlers} (l : PushHandlers)
    {method : List Nat} (h : hasMethod hs method = false) :
    lookupHandlers (hs ++ l) method = lookupHandlers l method := by
  induction hs with
  | nil => rfl
  | cons kv rest ih =>
    obtain ⟨k, hl⟩ := kv
    rw [hasMethod_cons] at h
    rw [List.cons_append, lookupHandlers_cons]
    by_cases hk : k = method
    · rw [if_pos hk] at h; cases h
    · rw [if_neg hk] at h
      rw [if_neg hk]
      exact ih h

theorem appendHandler_lookup {hs : PushHandlers} {method : List Nat}
    (hnew : Handler) (h : hasMethod hs method = true) :
    lookupHandlers (appendHandler hs method hnew) method =
      lookupHandlers hs method ++ [hnew] := by
  induction hs with
  | nil => cases h
  | cons kv rest ih =>
    obtain ⟨k, hl⟩ := kv
    rw [hasMethod_cons] at h
    rw [appendHandler_cons]
    by_cases hk : k = method
    · rw [if_pos hk, lookupHandlers_cons, lookupHandlers_cons, if_pos hk,
        if_pos hk]
    · rw [if_neg hk] at h
      rw [if_neg hk, lookupHandlers_cons, lookupHandlers_cons, if_neg hk,
        if_neg hk]
      exact ih h

theorem lookup_onPush (hs : PushHandlers) (method : List Nat) (hnew : Handler) :
    lookupHandlers (onPush hs method hnew) method =
      lookupHandlers hs method ++ [hnew] := by
  unfold onPush
  by_cases h : hasMethod hs method = true
  · rw [if_pos h]
    exact appendHandler_lookup hnew h
  · have hf : hasMethod hs method = false := by
      cases hh : hasMethod hs method
      · rfl
      · exact absurd hh h
    rw [if_neg h, lookupHandlers_append_right _ hf, lookupHandlers_eq_nil hf]
    rw [lookupHandlers_cons, if_pos rfl]
    rfl

/-- C8: a decoded packet whose id matches no pending slot is dispatched to
every handler registered under its method, in registration order (`on_push`
appends to that order); each handler's outcome is recorded independently —
an exception is caught and logged and stops neither the remaining handlers
nor the loop — and the session state is unchanged. -/
theorem c8_push_dispatch (s : ClientState) (pkt : LocoPacket)
    (hunmatched : dictGet s.pending pkt.packet_id = none) :
    recvStep s pkt = (s, .pushed ((lookupHandlers s.pushHandlers pkt.method).map
      fun h => match h pkt with | .ok _ => none | .error e => some e)) ∧
    (recvStep s pkt).1.connected = s.connected ∧
    (handlePush s.pushHandlers pkt).length =
      (lookupHandlers s.pushHandlers pkt.method).length ∧
    (∀ (hs : PushHandlers) (method : List Nat) (hnew : Handler),
      lookupHandlers (onPush hs method hnew) method =
        lookupHandlers hs method ++ [hnew]) := by
  have hstep : recvStep s pkt =
      (s, .pushed ((lookupHandlers s.pushHandlers pkt.method).map
        fun h => match h pkt with | .ok _ => none | .error e => some e)) := by
    unfold recvStep
    rw [hunmatched]
    simp [handlePush]
  refine ⟨hstep, by rw [hstep], ?_, lookup_onPush⟩
  simp [handlePush]

/-- Witness for C8: both handlers run in order — the first one's exception
is logged, the second still runs — and the state is unchanged. -/
theorem c8_witness :
    recvStep c8state c8pkt =
      (c8state, .pushed [some (asciiBytes "boom"), none]) :=
  (c8_push_dispatch c8state c8pkt rfl).1

/-- C3 (counterexample): when all three attempts fail, `checkin` raises
`ConnectionError("All checkin attempts failed")` — a fixed message. Two
runs whose attempt causes differ produce identical errors, and the cause
does not occur in the message: the error aggregates no attempt causes. -/
theorem c3_counterexample :
    checkin c3oracleA 5223 = .error (asciiBytes "All checkin attempts failed") ∧
    checkin c3oracleB 5223 = checkin c3oracleA 5223 ∧
    listContains (asciiBytes "xyzzy")
      (asciiBytes "All checkin attempts failed") = false :=
  ⟨rfl, rfl, by decide⟩

/-- C3 (amended): `checkin` tries exactly (TLS, 443), (TLS, candidatePort),
(legacy, candidatePort) in order, each under the 10-second `wait_for`
deadline (an attempt exceeding it counts as failed); it stops at the first
attempt whose reply body has a truthy `"host"`, recording the variant in
`"_use_tls"`; if no attempt yields one it raises a `ConnectionError` with
the fixed message `"All checkin attempts failed"` (attempt causes are only
logged, not aggregated into the error). -/
theorem c3_checkin (oracle : Bool × Nat → Nat × AttemptResult) (port : Nat) :
    checkinAttempts port = [(true, 443), (true, port), (false, port)] ∧
    (∀ body, attemptHost (attemptOutcome oracle (true, 443)) = some body →
      checkin oracle port =
        .ok (bdocSet body (asciiBytes "_use_tls") (.bool true))) ∧
    (∀ body, attemptHost (attemptOutcome oracle (true, 443)) = none →
      attemptHost (attemptOutcome oracle (true, port)) = none →
      attemptHost (attemptOutcome oracle (false, port)) = some body →
      checkin oracle port =
        .ok (bdocSet body (asciiBytes "_use_tls") (.bool false))) ∧
    ((oracle (true, 443)).1 > 10 →
      attemptOutcome oracle (true, 443) = .fails (asciiBytes "TimeoutError")) ∧
    (attemptHost (attemptOutcome oracle (true, 443)) = none →
      attemptHost (attemptOutcome oracle (true, port)) = none →
      attemptHost (attemptOutcome oracle (false, port)) = none →
      checkin oracle port = .error (asciiBytes "All checkin attempts failed")) := by
  refine ⟨rfl, ?_, ?_, ?_, ?_⟩
  · intro body h1
    simp [checkin, checkinAttempts, checkinRun, h1]
  · intro body h1 h2 h3
    simp [checkin, checkinAttempts, checkinRun, h1, h2, h3]
  · intro h
    simp [attemptOutcome, CHECKIN_TIMEOUT_SECONDS, h]
  · intro h1 h2 h3
    simp [checkin, checkinAttempts, checkinRun, h1, h2, h3]

/-- Witness for C3 (amended): under the canned oracle the legacy variant
wins and `_use_tls = False` is recorded. -/
theorem c3_checkin_witness :
    checkin c3oracle0 5223 =
      .ok (bdocSet c3hostBody (asciiBytes "_use_tls") (.bool false)) :=
  (c3_checkin c3oracle0 5223).2.2.1 c3hostBody (by decide) (by decide) (by decide)

/-- C9 (counterexample): `booking` and `checkin` each construct a fresh
local `PacketBuilder()`, so during one connection flow the discovery
request and the assignment request both carry packet id 1 — the id is
assigned twice within the session's lifetime. -/
theorem c9_counterexample :
    bookingPacket.packet_id = 1 ∧ (checkinPacket 0).packet_id = 1 ∧
    bookingPacket ≠ checkinPacket 0 :=
  ⟨rfl, rfl, by decide⟩

theorem buildSeq_ids (b : PacketBuilder) (reqs : List (List Nat × BDoc)) :
    (buildSeq b reqs).map LocoPacket.packet_id =
      List.range' b.next_id reqs.length := by
  induction reqs generalizing b with
  | nil => rfl
  | cons r rest ih =>
    obtain ⟨m, body⟩ := r
    show b.next_id :: (buildSeq ⟨b.next_id + 1⟩ rest).map LocoPacket.packet_id =
      List.range' b.next_id (rest.length + 1)
    rw [List.range'_succ]
    rw [ih ⟨b.next_id + 1⟩]

/-- C9 (amended): within one `PacketBuilder` instance the assigned ids are
exactly 1, 2, 3, ..., strictly increasing and never repeated — this holds
for the session's own builder used by `send_command`; but `booking` and
`checkin` each use a fresh local builder, so their one-shot requests both
carry id 1. -/
theorem c9_builder_ids (reqs : List (List Nat × BDoc)) :
    (buildSeq PacketBuilder.start reqs).map LocoPacket.packet_id =
      List.range' 1 reqs.length ∧
    List.Pairwise (· < ·)
      ((buildSeq PacketBuilder.start reqs).map LocoPacket.packet_id) ∧
    bookingPacket.packet_id = 1 ∧ (checkinPacket 0).packet_id = 1 := by
  have hids := buildSeq_ids PacketBuilder.start reqs
  refine ⟨hids, ?_, rfl, rfl⟩
  rw [hids]
  exact List.pairwise_lt_range' 1 reqs.length 1 (by omega)

